import Mathlib

/-!
Verification development for the deck-hierarchy maintainer of
`rslib/src/decks/add.rs` (Anki).  Deck names encode tree position as a
sequence of components joined by the reserved separator character `\x1f`.
The code reconciles a proposed deck name against existing ancestors,
materializes missing ancestor decks, bounds the recursive ancestor lookup,
and orchestrates add/update as transactional operations.

Strings of the source are modelled as `List Char`; machine integers fit in
`Nat`/`Int` with no overflow in reach.  Storage, name normalization,
uniqueness renaming and the child-rename cascade are external collaborators
of this file's code and are modelled from the spec where noted.
-/

namespace AnkiDecks

/-- The reserved separator character `\x1f` (unit separator). -/
def sep : Char := Char.ofNat 31

/-- A deck name: the character sequence of the Rust `String`. -/
abbrev Name := List Char

/-- Modelled from the spec: storage name lookups go through a
case-insensitive ("unicase") collation, which is what lets ancestor
matching correct case drift ("possibly differently-cased" ancestor names).
We model the collation's per-character folding; it lowercases characters
and, by separator discipline, never folds anything onto the separator. -/
def foldChar (c : Char) : Char := if c.toLower = sep then c else c.toLower

/-- Case folding of a whole name under the storage collation. -/
def foldName (n : Name) : Name := n.map foldChar

/-- Split a name on the separator: Rust `str::split('\x1f')`.  The empty
string yields a single empty component. -/
def splitSep : Name → List Name
  | [] => [[]]
  | c :: rest =>
    match splitSep rest with
    | [] => [[]]
    | cur :: parts => if c = sep then [] :: cur :: parts else (c :: cur) :: parts

/-- Join components with the separator: Rust `[&str]::join("\x1f")`. -/
def joinSep : List Name → Name
  | [] => []
  | [x] => x
  | x :: y :: xs => x ++ sep :: joinSep (y :: xs)

theorem splitSep_ne_nil (n : Name) : splitSep n ≠ [] := by
  cases n with
  | nil => simp [splitSep]
  | cons c rest =>
    simp only [splitSep]
    cases splitSep rest with
    | nil => simp
    | cons cur parts =>
      by_cases h : c = sep <;> simp [h]

theorem joinSep_cons (x : Name) (l : List Name) (h : l ≠ []) :
    joinSep (x :: l) = x ++ sep :: joinSep l := by
  cases l with
  | nil => exact absurd rfl h
  | cons y ys => rfl

theorem splitSep_append (a b : Name) :
    splitSep (a ++ sep :: b) = splitSep a ++ splitSep b := by
  induction a with
  | nil =>
    simp only [List.nil_append, splitSep]
    cases h : splitSep b with
    | nil => exact absurd h (splitSep_ne_nil b)
    | cons cur parts => simp [splitSep]
  | cons c a' ih =>
    cases h : splitSep a' with
    | nil => exact absurd h (splitSep_ne_nil a')
    | cons cur parts =>
      simp only [List.cons_append, splitSep, List.append_eq]
      rw [ih, h]
      by_cases hc : c = sep <;> simp [hc]

theorem splitSep_sepFree (n : Name) (h : sep ∉ n) : splitSep n = [n] := by
  induction n with
  | nil => rfl
  | cons c rest ih =>
    have hc : c ≠ sep := fun hh => h (hh ▸ List.mem_cons_self c rest)
    have hrest : sep ∉ rest := fun hh => h (List.mem_cons_of_mem c hh)
    simp only [splitSep, ih hrest]
    simp [hc]

theorem mem_splitSep_sepFree (n : Name) : ∀ x ∈ splitSep n, sep ∉ x := by
  induction n with
  | nil => intro x hx; simp [splitSep] at hx; simp [hx]
  | cons c rest ih =>
    intro x hx
    simp only [splitSep] at hx
    cases h : splitSep rest with
    | nil => exact absurd h (splitSep_ne_nil rest)
    | cons cur parts =>
      rw [h] at hx
      have hcur : sep ∉ cur := ih cur (h ▸ List.mem_cons_self cur parts)
      have hparts : ∀ y ∈ parts, sep ∉ y := fun y hy =>
        ih y (h ▸ List.mem_cons_of_mem cur hy)
      by_cases hc : c = sep
      · simp [hc] at hx
        rcases hx with hx | hx | hx
        · simp [hx]
        · exact hx ▸ hcur
        · exact hparts x hx
      · simp [hc] at hx
        rcases hx with hx | hx
        · subst hx
          intro hmem
          rcases List.mem_cons.mp hmem with h1 | h1
          · exact hc h1.symm
          · exact hcur h1
        · exact hparts x hx

theorem joinSep_splitSep (n : Name) : joinSep (splitSep n) = n := by
  induction n with
  | nil => rfl
  | cons c rest ih =>
    cases h : splitSep rest with
    | nil => exact absurd h (splitSep_ne_nil rest)
    | cons cur parts =>
      rw [h] at ih
      by_cases hc : c = sep
      · subst hc
        have hj : joinSep ([] :: cur :: parts) = sep :: rest := by
          rw [joinSep_cons _ _ (by simp)]
          simpa using ih
        simpa [splitSep, h] using hj
      · simp only [splitSep, h]
        rw [if_neg hc]
        cases parts with
        | nil => simpa [joinSep] using congrArg (c :: ·) ih
        | cons p ps =>
          rw [joinSep_cons _ _ (by simp)] at ih ⊢
          simpa using congrArg (c :: ·) ih

theorem splitSep_joinSep (cs : List Name) (hne : cs ≠ [])
    (hfree : ∀ x ∈ cs, sep ∉ x) : splitSep (joinSep cs) = cs := by
  induction cs with
  | nil => exact absurd rfl hne
  | cons x xs ih =>
    cases xs with
    | nil => simpa [joinSep] using splitSep_sepFree x (hfree x (by simp))
    | cons y ys =>
      rw [joinSep_cons _ _ (by simp), splitSep_append,
        splitSep_sepFree x (hfree x (by simp)),
        ih (by simp) (fun z hz => hfree z (List.mem_cons_of_mem x hz))]
      rfl

theorem joinSep_append (a b : List Name) (ha : a ≠ []) (hb : b ≠ []) :
    joinSep (a ++ b) = joinSep a ++ sep :: joinSep b := by
  induction a with
  | nil => exact absurd rfl ha
  | cons x xs ih =>
    cases xs with
    | nil => rw [List.singleton_append, joinSep_cons _ _ hb]; rfl
    | cons y ys =>
      rw [List.cons_append, joinSep_cons _ _ (by simp),
        joinSep_cons _ _ (by simp), ih (by simp)]
      simp

/-- Modelled from the spec: `immediateParentName(name)` returns the name
formed by all components except the last, or none if only one component
exists (the code imports it from the sibling `name` module).  On the
character sequence this is everything before the last separator. -/
def immediate_parent_name : Name → Option Name
  | [] => none
  | c :: rest =>
    match immediate_parent_name rest with
    | some p => some (c :: p)
    | none => if c = sep then some [] else none

theorem immediate_parent_name_eq_none (n : Name) :
    immediate_parent_name n = none ↔ sep ∉ n := by
  induction n with
  | nil => simp [immediate_parent_name]
  | cons c rest ih =>
    simp only [immediate_parent_name]
    cases h : immediate_parent_name rest with
    | some p =>
      have hmem : sep ∈ rest := by
        by_contra hnm
        have h2 := ih.mpr hnm
        rw [h2] at h
        exact Option.noConfusion h
      simp [hmem]
    | none =>
      have hrest : sep ∉ rest := ih.mp h
      by_cases hc : c = sep
      · simp [hc]
      · simp [hc, hrest, Ne.symm hc]

theorem immediate_parent_name_append_sepFree (a b : Name) (hb : sep ∉ b) :
    immediate_parent_name (a ++ sep :: b) = some a := by
  induction a with
  | nil =>
    have : immediate_parent_name b = none := (immediate_parent_name_eq_none b).mpr hb
    simp [immediate_parent_name, this]
  | cons c a' ih => simp [immediate_parent_name, ih]

theorem immediate_parent_name_append_deep (a b p : Name)
    (hp : immediate_parent_name b = some p) :
    immediate_parent_name (a ++ sep :: b) = some (a ++ sep :: p) := by
  induction a with
  | nil => simp [immediate_parent_name, hp]
  | cons c a' ih => simp [immediate_parent_name, ih]

theorem immediate_parent_name_struct (n p : Name)
    (h : immediate_parent_name n = some p) :
    ∃ t, n = p ++ sep :: t ∧ sep ∉ t := by
  induction n generalizing p with
  | nil => simp [immediate_parent_name] at h
  | cons c rest ih =>
    simp only [immediate_parent_name] at h
    cases hr : immediate_parent_name rest with
    | some q =>
      rw [hr] at h
      obtain ⟨t, ht, hfree⟩ := ih q hr
      cases h
      exact ⟨t, by simp [ht], hfree⟩
    | none =>
      rw [hr] at h
      by_cases hc : c = sep
      · rw [if_pos hc] at h
        cases h
        exact ⟨rest, by simp [hc], (immediate_parent_name_eq_none rest).mp hr⟩
      · rw [if_neg hc] at h
        cases h

theorem immediate_parent_name_length (n p : Name)
    (h : immediate_parent_name n = some p) : p.length < n.length := by
  obtain ⟨t, ht, -⟩ := immediate_parent_name_struct n p h
  subst ht
  simp

/-- The parent name in terms of components: drop the last component. -/
theorem immediate_parent_name_eq_components (n : Name) :
    immediate_parent_name n =
      if 2 ≤ (splitSep n).length then some (joinSep (splitSep n).dropLast)
      else none := by
  cases h : splitSep n with
  | nil => exact absurd h (splitSep_ne_nil n)
  | cons c0 cs =>
    cases cs with
    | nil =>
      rw [if_neg (by simp)]
      rw [immediate_parent_name_eq_none]
      intro hmem
      have := joinSep_splitSep n
      rw [h] at this
      simp only [joinSep] at this
      exact mem_splitSep_sepFree n c0 (h ▸ List.mem_cons_self c0 []) (this ▸ hmem)
    | cons c1 cs' =>
      rw [if_pos (by simp), ← h]
      have hjoin := joinSep_splitSep n
      have hfree : ∀ x ∈ splitSep n, sep ∉ x := mem_splitSep_sepFree n
      have hne : splitSep n ≠ [] := splitSep_ne_nil n
      obtain ⟨init, last, hil⟩ : ∃ i l, splitSep n = i ++ [l] :=
        ⟨(splitSep n).dropLast, (splitSep n).getLast hne,
          (List.dropLast_append_getLast hne).symm⟩
      have hinit_ne : init ≠ [] := by
        intro hnil
        rw [hnil, List.nil_append] at hil
        rw [h] at hil
        simp at hil
      have hlast_free : sep ∉ last := hfree last (by rw [hil]; simp)
      have hn : n = joinSep init ++ sep :: last := by
        conv_lhs => rw [← hjoin, hil]
        rw [joinSep_append init [last] hinit_ne (by simp)]
        rfl
      rw [hil, List.dropLast_concat]
      rw [hn, immediate_parent_name_append_sepFree (joinSep init) last hlast_free]

theorem sep_toLower : sep.toLower = sep := by decide

theorem foldChar_sep : foldChar sep = sep := by
  unfold foldChar
  rw [if_pos sep_toLower]

theorem foldChar_eq_sep_iff (c : Char) : foldChar c = sep ↔ c = sep := by
  constructor
  · intro h
    unfold foldChar at h
    by_cases hc : c.toLower = sep
    · rwa [if_pos hc] at h
    · rw [if_neg hc] at h
      exact absurd h hc
  · intro h
    rw [h]
    exact foldChar_sep

theorem foldName_length (n : Name) : (foldName n).length = n.length := by
  simp [foldName]

theorem foldName_append (a b : Name) :
    foldName (a ++ b) = foldName a ++ foldName b := by
  simp [foldName]

theorem foldName_sep_cons (b : Name) :
    foldName (sep :: b) = sep :: foldName b := by
  simp [foldName, foldChar_sep]

theorem foldName_not_mem_sep (n : Name) (h : sep ∉ n) : sep ∉ foldName n := by
  intro hmem
  simp only [foldName, List.mem_map] at hmem
  obtain ⟨c, hc, hfold⟩ := hmem
  exact h (((foldChar_eq_sep_iff c).mp hfold) ▸ hc)

theorem splitSep_foldName (n : Name) :
    splitSep (foldName n) = (splitSep n).map foldName := by
  induction n with
  | nil => simp [foldName, splitSep]
  | cons c rest ih =>
    by_cases hc : c = sep
    · subst hc
      rw [foldName_sep_cons]
      simp only [splitSep, ih]
      cases h : splitSep rest with
      | nil => exact absurd h (splitSep_ne_nil rest)
      | cons cur parts => simp [foldName]
    · have hfc : foldChar c ≠ sep := fun hh => hc ((foldChar_eq_sep_iff c).mp hh)
      have : foldName (c :: rest) = foldChar c :: foldName rest := by simp [foldName]
      rw [this]
      simp only [splitSep, ih]
      cases h : splitSep rest with
      | nil => exact absurd h (splitSep_ne_nil rest)
      | cons cur parts => simp [hc, hfc, foldName]

theorem length_splitSep_foldName (n : Name) :
    (splitSep (foldName n)).length = (splitSep n).length := by
  rw [splitSep_foldName]
  simp

theorem foldName_joinSep (cs : List Name) :
    foldName (joinSep cs) = joinSep (cs.map foldName) := by
  induction cs with
  | nil => simp [joinSep, foldName]
  | cons x xs ih =>
    cases xs with
    | nil => simp [joinSep]
    | cons y ys =>
      have hmap : List.map foldName (x :: y :: ys) =
          foldName x :: List.map foldName (y :: ys) := rfl
      rw [joinSep_cons _ _ (by simp), foldName_append, foldName_sep_cons, ih, hmap,
        joinSep_cons _ _ (by simp)]

/-! ## Data model -/

/-- The deck kind: Normal or Filtered (`DeckKind` in the proto/Rust model). -/
inductive DeckKind where
  | normal
  | filtered
deriving DecidableEq, Repr

/-- A deck row.  `id` is the opaque identifier (sentinel 0 = unassigned),
`name` the encoded path, `usn` the sync version stamped by `set_modified`.
The wall-clock `mtime_secs` also touched by `set_modified` is external
input (a clock read) irrelevant to every claim and is elided. -/
structure Deck where
  id : Nat
  name : Name
  kind : DeckKind
  usn : Int
deriving DecidableEq, Repr

/-- Rust `Deck::is_filtered`: a tag test on the kind. -/
def Deck.is_filtered (d : Deck) : Bool := d.kind = DeckKind.filtered

/-- Rust `Deck::new_normal()`: a fresh normal deck with sentinel id. -/
def Deck.new_normal : Deck := { id := 0, name := [], kind := .normal, usn := 0 }

/-- Rust `Deck::set_modified(usn)`: stamps the sync version (the wall-clock
mtime it also stamps is elided, see `Deck`). -/
def Deck.set_modified (d : Deck) (usn : Int) : Deck := { d with usn := usn }

/-- The collection store visible to this code: the persisted deck rows, the
next fresh row id, and the collection's current sync version (`col.usn()`).
Storage itself is an external collaborator; rows are modelled as a list. -/
structure Store where
  decks : List Deck
  next_id : Nat
  usn : Int
deriving Repr

/-- The error kinds this code produces (`AnkiError`). -/
inductive AnkiError where
  | invalid_input (msg : String)
  | not_found
  | filtered_deck_must_be_leaf
deriving DecidableEq, Repr

/-- Modelled from the spec: storage `getDeck(id)` — lookup of a persisted
row by id. -/
def get_deck (st : Store) (id : Nat) : Option Deck :=
  st.decks.find? (fun d => d.id == id)

/-- Modelled from the spec: storage `getDeckId(name)` — lookup of a row id
by name under the storage's case-insensitive (unicase) name collation. -/
def get_deck_id (st : Store) (n : Name) : Option Nat :=
  (st.decks.find? (fun d => foldName d.name == foldName n)).map (·.id)

/-- Modelled from the spec: `add_deck_undoable` persists the deck with a
freshly assigned id and records an undo entry (undo log elided). -/
def add_deck_undoable (st : Store) (d : Deck) : Store × Deck :=
  let d' := { d with id := st.next_id }
  ({ st with decks := st.decks ++ [d'], next_id := st.next_id + 1 }, d')

/-- Modelled from the spec: `update_single_deck_undoable(deck, original)`
rewrites the persisted row keyed by the deck's id (undo log elided; the
`original` argument only feeds the undo entry). -/
def update_single_deck_undoable (st : Store) (d : Deck) (_original : Deck) : Store :=
  { st with decks := st.decks.map (fun e => if e.id == d.id then d else e) }

/-- `isSeg a b`: `a` is an initial segment of `b`. -/
def isSeg : Name → Name → Bool
  | [], _ => true
  | _ :: _, [] => false
  | c :: a, d :: b => c = d && isSeg a b

theorem isSeg_iff (a b : Name) : isSeg a b = true ↔ ∃ t, b = a ++ t := by
  induction a generalizing b with
  | nil => simp [isSeg]
  | cons c a' ih =>
    cases b with
    | nil => simp [isSeg]
    | cons d b' =>
      simp only [isSeg, Bool.and_eq_true, decide_eq_true_eq, ih]
      constructor
      · rintro ⟨rfl, t, rfl⟩
        exact ⟨t, rfl⟩
      · rintro ⟨t, ht⟩
        cases ht
        exact ⟨rfl, t, rfl⟩

/-- Modelled from the spec: the descendant renamer
`renameChildDecks(originalDeck, newPrefix, syncVersion)` rewrites every
descendant's stored name, substituting the new prefix for the old, and
persists each (descendants are matched under the same unicase collation as
all name lookups). -/
def rename_child_decks (st : Store) (original : Deck) (new_name : Name) (usn : Int) :
    Store :=
  { st with
    decks := st.decks.map (fun e =>
      if isSeg (foldName (original.name ++ [sep])) (foldName e.name) then
        ({ e with
          name := new_name ++ sep :: e.name.drop (original.name.length + 1)
        }).set_modified usn
      else e) }

/-- Modelled from the spec: the transaction wrapper — commits the mutated
store on success, rolls the store back on failure. -/
def transact {α : Type} (st : Store) (body : Store → Except AnkiError (Store × α)) :
    Store × Except AnkiError α :=
  match body st with
  | .ok (st', a) => (st', .ok a)
  | .error e => (st, .error e)

/-- Modelled from the spec: the external name normalizer and the uniqueness
enforcer (`normalize(name)` and `ensureUnique(deck)`).  Their outputs are
otherwise unconstrained here, so both are abstract functions: `normalize`
maps a name to its normalized form, and `uniquify` maps store and deck to
the (possibly renamed) name the uniqueness enforcer leaves on the deck. -/
structure NameEnv where
  normalize : Name → Name
  uniquify : Store → Deck → Name

/-- Modelled from the spec via `NameEnv`: Rust `ensure_deck_name_unique`
renames the deck in place if it collides, bumping mtime/usn when renamed. -/
def ensure_deck_name_unique (env : NameEnv) (st : Store) (d : Deck) (usn : Int) :
    Deck :=
  let n := env.uniquify st d
  if n = d.name then d else ({ d with name := n }).set_modified usn

/-- `prepare_deck_for_update`: normalize the deck name (bumping
mtime/usn only if the name actually changed), then rename for uniqueness. -/
def prepare_deck_for_update (env : NameEnv) (st : Store) (deck : Deck) (usn : Int) :
    Deck :=
  let d1 :=
    if env.normalize deck.name = deck.name then deck
    else ({ deck with name := env.normalize deck.name }).set_modified usn
  ensure_deck_name_unique env st d1 usn

/-! ## The hierarchy maintainer (`add.rs`) -/

/-- `first_existing_parent`: walk upward through the encoded path to the
nearest existing ancestor, guarded at recursion level 10.  Read-only: it
takes the store and returns no store, performing no mutation. -/
def first_existing_parent (st : Store) (machine_name : Name) (recursion_level : Nat) :
    Except AnkiError (Option Deck) :=
  if 10 < recursion_level then
    .error (.invalid_input "deck nesting level too deep")
  else
    match h : immediate_parent_name machine_name with
    | some parent_name =>
      match get_deck_id st parent_name with
      | some parent_did => .ok (get_deck st parent_did)
      | none => first_existing_parent st parent_name (recursion_level + 1)
    | none => .ok none
termination_by machine_name.length
decreasing_by exact immediate_parent_name_length _ _ h

/-- `add_parent_deck`: add a single, normal deck with the provided name
for a child deck. -/
def add_parent_deck (st : Store) (machine_name : Name) (usn : Int) : Store :=
  (add_deck_undoable st (({ Deck.new_normal with name := machine_name }).set_modified usn)).1

/-- `create_missing_parents`: walk from the immediate parent upward,
adding a parent deck at every level whose name has no row in storage. -/
def create_missing_parents (st : Store) (machine_name : Name) (usn : Int) : Store :=
  match h : immediate_parent_name machine_name with
  | some parent_name =>
    let st' :=
      if (get_deck_id st parent_name).isNone then add_parent_deck st parent_name usn
      else st
    create_missing_parents st' parent_name usn
  | none => st
termination_by machine_name.length
decreasing_by exact immediate_parent_name_length _ _ h

/-- `match_or_create_parents`: if parent deck(s) exist, rewrite the deck's
name to match their case; if they don't exist, create them.  Fails if the
first existing parent is a filtered deck. -/
def match_or_create_parents (st : Store) (deck : Deck) (usn : Int) :
    Except AnkiError (Store × Deck) :=
  let child_split := splitSep deck.name
  match first_existing_parent st deck.name 0 with
  | .error e => .error e
  | .ok (some parent_deck) =>
    if parent_deck.is_filtered then
      .error .filtered_deck_must_be_leaf
    else
      let parent_count := parent_deck.name.count sep + 1
      let need_create := parent_count ≠ child_split.length - 1
      let deck' :=
        { deck with
          name := parent_deck.name ++ sep :: joinSep (child_split.drop parent_count) }
      if need_create then
        .ok (create_missing_parents st deck'.name usn, deck')
      else
        .ok (st, deck')
  | .ok none =>
    if child_split.length = 1 then
      -- no parents required
      .ok (st, deck)
    else
      -- no existing parents
      .ok (create_missing_parents st deck.name usn, deck)

/-- `add_deck_inner`: prepare the name, stamp modification, reconcile
parents, persist with a fresh id. -/
def add_deck_inner (env : NameEnv) (st : Store) (deck : Deck) (usn : Int) :
    Except AnkiError (Store × Deck) :=
  let d1 := (prepare_deck_for_update env st deck usn).set_modified usn
  match match_or_create_parents st d1 usn with
  | .error e => .error e
  | .ok (st1, d2) => .ok (add_deck_undoable st1 d2)

/-- `add_deck`: the id must be 0, as it will be automatically assigned. -/
def add_deck (env : NameEnv) (st : Store) (deck : Deck) :
    Store × Except AnkiError Deck :=
  if deck.id ≠ 0 then
    (st, .error (.invalid_input "deck to add must have id 0"))
  else
    transact st (fun col => add_deck_inner env col deck col.usn)

/-- `update_deck_inner`: prepare the name; if it changed, reconcile
parents, cascade-rename children, persist, then re-create any missing
grandparents of the new name; otherwise persist directly. -/
def update_deck_inner (env : NameEnv) (st : Store) (deck : Deck) (original : Deck)
    (usn : Int) : Except AnkiError (Store × Deck) :=
  let d1 := (prepare_deck_for_update env st deck usn).set_modified usn
  let name_changed := original.name ≠ d1.name
  if name_changed then
    match match_or_create_parents st d1 usn with
    | .error e => .error e
    | .ok (st1, d2) =>
      let st2 := rename_child_decks st1 original d2.name usn
      let st3 := update_single_deck_undoable st2 d2 original
      let st4 := create_missing_parents st3 d2.name usn
      .ok (st4, d2)
  else
    .ok (update_single_deck_undoable st d1 original, d1)

/-- `update_deck`: load the existing row by id (not-found error if absent)
and run the inner update inside a transaction. -/
def update_deck (env : NameEnv) (st : Store) (deck : Deck) :
    Store × Except AnkiError Deck :=
  transact st (fun col =>
    match get_deck col deck.id with
    | none => .error .not_found
    | some existing_deck => update_deck_inner env col deck existing_deck col.usn)

/-- `add_or_update_deck`: dispatch on the sentinel id. -/
def add_or_update_deck (env : NameEnv) (st : Store) (deck : Deck) :
    Store × Except AnkiError Deck :=
  if deck.id = 0 then add_deck env st deck else update_deck env st deck

/-! ## Ancestor chains and store predicates -/

/-- The chain of proper ancestor names of `n`, nearest (longest) first. -/
def parent_chain (n : Name) : List Name :=
  match h : immediate_parent_name n with
  | some p => p :: parent_chain p
  | none => []
termination_by n.length
decreasing_by exact immediate_parent_name_length _ _ h

theorem parent_chain_some (n p : Name) (h : immediate_parent_name n = some p) :
    parent_chain n = p :: parent_chain p := by
  rw [parent_chain]
  split
  · rename_i p' hp'
    rw [h] at hp'
    cases hp'
    rfl
  · rename_i hp'
    rw [h] at hp'
    cases hp'

theorem parent_chain_none (n : Name) (h : immediate_parent_name n = none) :
    parent_chain n = [] := by
  rw [parent_chain]
  split
  · rename_i p' hp'
    rw [h] at hp'
    cases hp'
  · rfl

/-- Unfold: the depth guard of `first_existing_parent`. -/
theorem first_existing_parent_guard (st : Store) (n : Name) (lvl : Nat)
    (h : 10 < lvl) :
    first_existing_parent st n lvl = .error (.invalid_input "deck nesting level too deep") := by
  rw [first_existing_parent, if_pos h]

/-- Unfold: no parent name means no ancestors. -/
theorem first_existing_parent_root (st : Store) (n : Name) (lvl : Nat)
    (hl : ¬ 10 < lvl) (h : immediate_parent_name n = none) :
    first_existing_parent st n lvl = .ok none := by
  rw [first_existing_parent, if_neg hl]
  split
  · rename_i p' hp'
    rw [h] at hp'
    cases hp'
  · rfl

/-- Unfold: the parent name has a row, so return that deck. -/
theorem first_existing_parent_found (st : Store) (n p : Name) (lvl : Nat) (did : Nat)
    (hl : ¬ 10 < lvl) (h : immediate_parent_name n = some p)
    (hid : get_deck_id st p = some did) :
    first_existing_parent st n lvl = .ok (get_deck st did) := by
  rw [first_existing_parent, if_neg hl]
  split
  · rename_i p' hp'
    rw [h] at hp'
    cases hp'
    rw [hid]
  · rename_i hp'
    rw [h] at hp'
    cases hp'

/-- Unfold: the parent name has no row, so recurse one level up. -/
theorem first_existing_parent_miss (st : Store) (n p : Name) (lvl : Nat)
    (hl : ¬ 10 < lvl) (h : immediate_parent_name n = some p)
    (hid : get_deck_id st p = none) :
    first_existing_parent st n lvl = first_existing_parent st p (lvl + 1) := by
  rw [first_existing_parent, if_neg hl]
  split
  · rename_i p' hp'
    rw [h] at hp'
    cases hp'
    rw [hid]
  · rename_i hp'
    rw [h] at hp'
    cases hp'

/-- Unfold: `create_missing_parents` at the root. -/
theorem create_missing_parents_root (st : Store) (n : Name) (usn : Int)
    (h : immediate_parent_name n = none) :
    create_missing_parents st n usn = st := by
  rw [create_missing_parents]
  split
  · rename_i p' hp'
    rw [h] at hp'
    cases hp'
  · rfl

/-- Unfold: `create_missing_parents` one step. -/
theorem create_missing_parents_step (st : Store) (n p : Name) (usn : Int)
    (h : immediate_parent_name n = some p) :
    create_missing_parents st n usn =
      create_missing_parents
        (if (get_deck_id st p).isNone then add_parent_deck st p usn else st) p usn := by
  conv_lhs => rw [create_missing_parents]
  split
  · rename_i p' hp'
    rw [h] at hp'
    cases hp'
    rfl
  · rename_i hp'
    rw [h] at hp'
    cases hp'

/-- A deck with exactly this name is persisted. -/
def lit_present (st : Store) (q : Name) : Prop :=
  ∃ d ∈ st.decks, d.name = q

/-- A deck with this name up to the storage collation is persisted. -/
def uni_present (st : Store) (q : Name) : Prop :=
  ∃ d ∈ st.decks, foldName d.name = foldName q

/-- Well-formedness: persisted row ids are pairwise distinct. -/
def IdsNodup (st : Store) : Prop := (st.decks.map (·.id)).Nodup

/-- Well-formedness: the unique name index — no two rows share a name
under the storage collation. -/
def UniqueNames (st : Store) : Prop :=
  st.decks.Pairwise (fun a b => foldName a.name ≠ foldName b.name)

/-- Well-formedness: `next_id` is fresh for every persisted row. -/
def NextIdOk (st : Store) : Prop := ∀ d ∈ st.decks, d.id < st.next_id

/-- Ancestor completeness as the claim states it: for every persisted deck
whose name has more than one component, a deck named by the leading
components (all but the last) is also persisted. -/
def AncestorComplete (st : Store) : Prop :=
  ∀ d ∈ st.decks, 2 ≤ (splitSep d.name).length →
    lit_present st (joinSep (splitSep d.name).dropLast)

/-- Ancestor completeness, phrased through `immediate_parent_name`. -/
def ParentComplete (st : Store) : Prop :=
  ∀ d ∈ st.decks, ∀ p, immediate_parent_name d.name = some p → lit_present st p

theorem ancestorComplete_iff_parentComplete (st : Store) :
    AncestorComplete st ↔ ParentComplete st := by
  constructor
  · intro h d hd p hp
    rw [immediate_parent_name_eq_components] at hp
    by_cases hlen : 2 ≤ (splitSep d.name).length
    · rw [if_pos hlen] at hp
      cases hp
      exact h d hd hlen
    · rw [if_neg hlen] at hp
      cases hp
  · intro h d hd hlen
    apply h d hd
    rw [immediate_parent_name_eq_components, if_pos hlen]

theorem lit_present_uni (st : Store) (q : Name) (h : lit_present st q) :
    uni_present st q := by
  obtain ⟨d, hd, hname⟩ := h
  exact ⟨d, hd, by rw [hname]⟩

theorem get_deck_id_none_iff (st : Store) (q : Name) :
    get_deck_id st q = none ↔ ¬ uni_present st q := by
  simp only [get_deck_id, Option.map_eq_none', List.find?_eq_none, beq_iff_eq,
    uni_present]
  constructor
  · rintro h ⟨d, hd, hf⟩
    exact h d hd hf
  · intro h d hd hf
    exact h ⟨d, hd, hf⟩

theorem mem_id_unique_list (l : List Deck) (hn : (l.map (·.id)).Nodup) (a b : Deck)
    (ha : a ∈ l) (hb : b ∈ l) (hid : a.id = b.id) : a = b := by
  induction l with
  | nil => cases ha
  | cons x xs ih =>
    rw [List.map_cons, List.nodup_cons] at hn
    rcases List.mem_cons.mp ha with rfl | ha' <;>
      rcases List.mem_cons.mp hb with rfl | hb'
    · rfl
    · exact absurd (hid ▸ List.mem_map_of_mem (·.id) hb') hn.1
    · exact absurd (hid.symm ▸ List.mem_map_of_mem (·.id) ha') hn.1
    · exact ih hn.2 ha' hb'

theorem mem_id_unique (st : Store) (hn : IdsNodup st) (a b : Deck)
    (ha : a ∈ st.decks) (hb : b ∈ st.decks) (hid : a.id = b.id) : a = b :=
  mem_id_unique_list st.decks hn a b ha hb hid

theorem get_deck_mem (st : Store) (i : Nat) (d : Deck)
    (h : get_deck st i = some d) : d ∈ st.decks ∧ d.id = i := by
  unfold get_deck at h
  have hm := List.mem_of_find?_eq_some h
  have hp := List.find?_some h
  simp only [beq_iff_eq] at hp
  exact ⟨hm, hp⟩

/-- Following `get_deck_id` by `get_deck` (as `first_existing_parent`
does) lands, under distinct ids, on a persisted deck whose name matches
the queried name under the collation. -/
theorem get_deck_of_get_deck_id (st : Store) (q : Name) (i : Nat) (d : Deck)
    (hn : IdsNodup st) (hid : get_deck_id st q = some i)
    (hd : get_deck st i = some d) :
    d ∈ st.decks ∧ foldName d.name = foldName q := by
  unfold get_deck_id at hid
  obtain ⟨w, hfind, hwid⟩ := Option.map_eq_some'.mp hid
  have hwmem := List.mem_of_find?_eq_some hfind
  have hwp := List.find?_some hfind
  simp only [beq_iff_eq] at hwp
  obtain ⟨hdm, hdid⟩ := get_deck_mem st i d hd
  have : d = w := mem_id_unique st hn d w hdm hwmem (by rw [hdid, ← hwid])
  exact ⟨hdm, this ▸ hwp⟩

theorem immediate_parent_name_some_components (n p : Name)
    (h : immediate_parent_name n = some p) :
    2 ≤ (splitSep n).length ∧ p = joinSep (splitSep n).dropLast := by
  rw [immediate_parent_name_eq_components] at h
  by_cases hlen : 2 ≤ (splitSep n).length
  · rw [if_pos hlen] at h
    cases h
    exact ⟨hlen, rfl⟩
  · rw [if_neg hlen] at h
    cases h

theorem splitSep_parent (n p : Name) (h : immediate_parent_name n = some p) :
    splitSep p = (splitSep n).dropLast := by
  obtain ⟨hlen, rfl⟩ := immediate_parent_name_some_components n p h
  apply splitSep_joinSep
  · intro hnil
    have := congrArg List.length hnil
    rw [List.length_dropLast] at this
    simp at this
    omega
  · intro x hx
    exact mem_splitSep_sepFree n x ((List.dropLast_sublist _).subset hx)

theorem parent_chain_closed (n : Name) :
    ∀ q ∈ parent_chain n, ∀ p, immediate_parent_name q = some p →
      p ∈ parent_chain n := by
  induction n using parent_chain.induct with
  | case1 n p0 hp0 ih =>
    intro q hq p hp
    rw [parent_chain_some n p0 hp0] at hq
    rw [parent_chain_some n p0 hp0]
    rcases List.mem_cons.mp hq with heq | hq'
    · subst heq
      exact List.mem_cons_of_mem _
        (by rw [parent_chain_some q p hp]; exact List.mem_cons_self _ _)
    · exact List.mem_cons_of_mem _ (ih q hq' p hp)
  | case2 n hp0 =>
    intro q hq
    rw [parent_chain_none n hp0] at hq
    cases hq

theorem parent_chain_mem_iff (n q : Name) :
    q ∈ parent_chain n ↔
      ∃ j, 1 ≤ j ∧ j < (splitSep n).length ∧ q = joinSep ((splitSep n).take j) := by
  induction n using parent_chain.induct with
  | case2 n hp =>
    rw [parent_chain_none n hp]
    simp only [List.not_mem_nil, false_iff, not_exists]
    rintro j ⟨hj1, hjlen, -⟩
    rw [immediate_parent_name_eq_components] at hp
    by_cases hlen : 2 ≤ (splitSep n).length
    · rw [if_pos hlen] at hp
      cases hp
    · omega
  | case1 n p hp ih =>
    obtain ⟨hlen, hpeq⟩ := immediate_parent_name_some_components n p hp
    have hsplitp : splitSep p = (splitSep n).dropLast := splitSep_parent n p hp
    have hdrop : (splitSep n).dropLast = (splitSep n).take ((splitSep n).length - 1) :=
      List.dropLast_eq_take _
    rw [parent_chain_some n p hp, List.mem_cons, ih]
    constructor
    · rintro (rfl | ⟨j, hj1, hjlen, rfl⟩)
      · exact ⟨(splitSep n).length - 1, by omega, by omega, by rw [hpeq, hdrop]⟩
      · rw [hsplitp, List.length_dropLast] at hjlen
        refine ⟨j, hj1, by omega, ?_⟩
        rw [hsplitp, hdrop, List.take_take, min_eq_left (by omega)]
    · rintro ⟨j, hj1, hjlen, rfl⟩
      by_cases hje : j = (splitSep n).length - 1
      · left
        rw [hpeq, hdrop, hje]
      · right
        refine ⟨j, hj1, ?_, ?_⟩
        · rw [hsplitp, List.length_dropLast]
          omega
        · rw [hsplitp, hdrop, List.take_take, min_eq_left (by omega)]

theorem parent_chain_entry (n q : Name) (hq : q ∈ parent_chain n) :
    ∃ j, 1 ≤ j ∧ j < (splitSep n).length ∧ q = joinSep ((splitSep n).take j) ∧
      splitSep q = (splitSep n).take j := by
  obtain ⟨j, hj1, hjlen, rfl⟩ := (parent_chain_mem_iff n _).mp hq
  refine ⟨j, hj1, hjlen, rfl, ?_⟩
  apply splitSep_joinSep
  · intro hnil
    have hlen0 := congrArg List.length hnil
    rw [List.length_take] at hlen0
    simp only [List.length_nil] at hlen0
    rcases Nat.min_eq_zero_iff.mp hlen0 with h0 | h0 <;> omega
  · intro x hx
    exact mem_splitSep_sepFree n x (List.take_subset _ _ hx)

theorem parent_chain_entry_length (n q : Name) (hq : q ∈ parent_chain n) :
    (splitSep q).length < (splitSep n).length := by
  obtain ⟨j, hj1, hjlen, -, hsplit⟩ := parent_chain_entry n q hq
  rw [hsplit, List.length_take]
  omega

theorem parent_chain_entry_inj (n q1 q2 : Name) (h1 : q1 ∈ parent_chain n)
    (h2 : q2 ∈ parent_chain n) (hf : foldName q1 = foldName q2) : q1 = q2 := by
  obtain ⟨j1, hj11, hj1len, he1, hs1⟩ := parent_chain_entry n q1 h1
  obtain ⟨j2, hj21, hj2len, he2, hs2⟩ := parent_chain_entry n q2 h2
  have hlen : (splitSep q1).length = (splitSep q2).length := by
    rw [← length_splitSep_foldName q1, ← length_splitSep_foldName q2, hf]
  rw [hs1, hs2, List.length_take, List.length_take] at hlen
  have : j1 = j2 := by omega
  rw [he1, he2, this]

/-! ## Properties of the ancestor resolver -/

theorem get_deck_id_some_uni (st : Store) (q : Name) (i : Nat)
    (h : get_deck_id st q = some i) : uni_present st q := by
  unfold get_deck_id at h
  obtain ⟨w, hfind, -⟩ := Option.map_eq_some'.mp h
  have hwp := List.find?_some hfind
  simp only [beq_iff_eq] at hwp
  exact ⟨w, List.mem_of_find?_eq_some hfind, hwp⟩

theorem first_existing_parent_ok_none (st : Store) (n : Name) (lvl : Nat)
    (h : first_existing_parent st n lvl = .ok none) :
    ∀ q ∈ parent_chain n, ¬ uni_present st q := by
  revert h
  refine first_existing_parent.induct st
    (fun n lvl => first_existing_parent st n lvl = .ok none →
      ∀ q ∈ parent_chain n, ¬ uni_present st q) ?_ ?_ ?_ ?_ n lvl
  · intro n lvl hguard
    rw [first_existing_parent_guard st n lvl hguard]
    intro h
    cases h
  · intro n lvl hguard p hp did hdid
    rw [first_existing_parent_found st n p lvl did hguard hp hdid]
    intro h q hq
    cases hmm : get_deck st did with
    | some d => rw [hmm] at h; cases h
    | none =>
      -- a name-indexed row id with no row: get_deck_id gave some, so the
      -- row found by name is a member, hence find-by-id cannot fail
      unfold get_deck_id at hdid
      obtain ⟨w, hfind, hwid⟩ := Option.map_eq_some'.mp hdid
      have hwmem := List.mem_of_find?_eq_some hfind
      unfold get_deck at hmm
      rw [List.find?_eq_none] at hmm
      exact absurd (show (w.id == did) = true by rw [hwid]; exact beq_self_eq_true did)
        (hmm w hwmem)
  · intro n lvl hguard p hp hdid ih
    rw [first_existing_parent_miss st n p lvl hguard hp hdid]
    intro h q hq
    rw [parent_chain_some n p hp] at hq
    rcases List.mem_cons.mp hq with heq | hq'
    · subst heq
      rw [← get_deck_id_none_iff]
      exact hdid
    · exact ih h q hq'
  · intro n lvl hguard hp
    intro h q hq
    rw [parent_chain_none n hp] at hq
    cases hq

theorem first_existing_parent_ok_some (st : Store) (n : Name) (lvl : Nat) (pd : Deck)
    (hnodup : IdsNodup st)
    (h : first_existing_parent st n lvl = .ok (some pd)) :
    pd ∈ st.decks ∧
      ∃ q pre post, parent_chain n = pre ++ q :: post ∧
        foldName pd.name = foldName q ∧ ∀ a ∈ pre, ¬ uni_present st a := by
  revert h
  refine first_existing_parent.induct st
    (fun n lvl => first_existing_parent st n lvl = .ok (some pd) →
      pd ∈ st.decks ∧
        ∃ q pre post, parent_chain n = pre ++ q :: post ∧
          foldName pd.name = foldName q ∧ ∀ a ∈ pre, ¬ uni_present st a)
    ?_ ?_ ?_ ?_ n lvl
  · intro n lvl hguard
    rw [first_existing_parent_guard st n lvl hguard]
    intro h
    cases h
  · intro n lvl hguard p hp did hdid
    rw [first_existing_parent_found st n p lvl did hguard hp hdid]
    intro h
    have hget : get_deck st did = some pd := by
      cases hmm : get_deck st did with
      | some d => rw [hmm] at h; cases h; rfl
      | none => rw [hmm] at h; cases h
    obtain ⟨hmem, hfold⟩ := get_deck_of_get_deck_id st p did pd hnodup hdid hget
    exact ⟨hmem, p, [], parent_chain p, parent_chain_some n p hp, hfold, by simp⟩
  · intro n lvl hguard p hp hdid ih
    rw [first_existing_parent_miss st n p lvl hguard hp hdid]
    intro h
    obtain ⟨hmem, q, pre, post, hchain, hfold, habs⟩ := ih h
    refine ⟨hmem, q, p :: pre, post, ?_, hfold, ?_⟩
    · rw [parent_chain_some n p hp, hchain]
      rfl
    · intro a ha
      rcases List.mem_cons.mp ha with heq | ha'
      · subst heq
        rw [← get_deck_id_none_iff]
        exact hdid
      · exact habs a ha'
  · intro n lvl hguard hp
    rw [first_existing_parent_root st n lvl hguard hp]
    intro h
    cases h

/-- The depth guard fires whenever the walk would pass recursion level 10:
if, seen from level `lvl`, the nearest `11 - lvl` ancestors all have no
row, and the chain is at least that long, the resolver fails. -/
theorem first_existing_parent_too_deep (st : Store) (n : Name) (lvl : Nat)
    (hdepth : 11 - lvl ≤ (parent_chain n).length)
    (habs : ∀ q ∈ (parent_chain n).take (11 - lvl), ¬ uni_present st q) :
    first_existing_parent st n lvl =
      .error (.invalid_input "deck nesting level too deep") := by
  revert hdepth habs
  refine first_existing_parent.induct st
    (fun n lvl => 11 - lvl ≤ (parent_chain n).length →
      (∀ q ∈ (parent_chain n).take (11 - lvl), ¬ uni_present st q) →
      first_existing_parent st n lvl =
        .error (.invalid_input "deck nesting level too deep")) ?_ ?_ ?_ ?_ n lvl
  · intro n lvl hguard hdepth habs
    exact first_existing_parent_guard st n lvl hguard
  · intro n lvl hguard p hp did hdid hdepth habs
    exfalso
    have hp_mem : p ∈ (parent_chain n).take (11 - lvl) := by
      rw [parent_chain_some n p hp]
      have h1 : 1 ≤ 11 - lvl := by omega
      cases hv : 11 - lvl with
      | zero => omega
      | succ m => exact List.mem_cons_self _ _
    exact habs p hp_mem (get_deck_id_some_uni st p did hdid)
  · intro n lvl hguard p hp hdid ih hdepth habs
    rw [first_existing_parent_miss st n p lvl hguard hp hdid]
    have hchain := parent_chain_some n p hp
    apply ih
    · rw [hchain] at hdepth
      simp only [List.length_cons] at hdepth
      omega
    · intro q hq
      apply habs
      rw [hchain]
      have h11 : 11 - lvl = (11 - (lvl + 1)) + 1 := by omega
      rw [h11, List.take_succ_cons]
      exact List.mem_cons_of_mem p hq
  · intro n lvl hguard hp hdepth habs
    rw [parent_chain_none n hp] at hdepth
    simp at hdepth
    omega

/-! ## Properties of the parent materializer -/

/-- One store extends another by appending rows (all mutations in this
code only append or rewrite rows; the materializer only appends). -/
def Extends (st st' : Store) : Prop := ∃ ext, st'.decks = st.decks ++ ext

theorem Extends.rfl (st : Store) : Extends st st := ⟨[], by simp⟩

theorem Extends.trans {st1 st2 st3 : Store} (h12 : Extends st1 st2)
    (h23 : Extends st2 st3) : Extends st1 st3 := by
  obtain ⟨e1, h1⟩ := h12
  obtain ⟨e2, h2⟩ := h23
  exact ⟨e1 ++ e2, by rw [h2, h1, List.append_assoc]⟩

theorem Extends.mem {st st' : Store} (h : Extends st st') {d : Deck}
    (hd : d ∈ st.decks) : d ∈ st'.decks := by
  obtain ⟨ext, he⟩ := h
  rw [he]
  exact List.mem_append_left _ hd

theorem Extends.lit {st st' : Store} (h : Extends st st') {q : Name}
    (hq : lit_present st q) : lit_present st' q := by
  obtain ⟨d, hd, hn⟩ := hq
  exact ⟨d, h.mem hd, hn⟩

theorem Extends.uni {st st' : Store} (h : Extends st st') {q : Name}
    (hq : uni_present st q) : uni_present st' q := by
  obtain ⟨d, hd, hn⟩ := hq
  exact ⟨d, h.mem hd, hn⟩

theorem add_parent_deck_decks (st : Store) (p : Name) (usn : Int) :
    (add_parent_deck st p usn).decks =
      st.decks ++ [{ id := st.next_id, name := p, kind := .normal, usn := usn }] ∧
    (add_parent_deck st p usn).next_id = st.next_id + 1 ∧
    (add_parent_deck st p usn).usn = st.usn :=
  ⟨rfl, rfl, rfl⟩

/-- Membership in a store extended by one appended row. -/
theorem mem_append_single {l : List Deck} {c d : Deck}
    (h : d ∈ l ++ [c]) : d ∈ l ∨ d = c := by
  rcases List.mem_append.mp h with h' | h'
  · exact Or.inl h'
  · exact Or.inr (by simpa using h')

/-- Structure of the materializer's result: it only appends rows, keeps
the collection usn, never lowers `next_id`, and every appended row is a
normal deck named by a proper ancestor of the argument that had no row
(under the collation) in the starting store, carrying a fresh id. -/
theorem create_missing_parents_decks (st : Store) (n : Name) (usn : Int) :
    ∃ ext, (create_missing_parents st n usn).decks = st.decks ++ ext ∧
      (create_missing_parents st n usn).usn = st.usn ∧
      st.next_id ≤ (create_missing_parents st n usn).next_id ∧
      ∀ d ∈ ext, d.name ∈ parent_chain n ∧ ¬ uni_present st d.name ∧
        d.kind = DeckKind.normal ∧ st.next_id ≤ d.id := by
  induction st, n, usn using create_missing_parents.induct with
  | case2 st n usn hp =>
    rw [create_missing_parents_root st n usn hp]
    exact ⟨[], by simp, rfl, le_refl _, by simp⟩
  | case1 st n usn p hp st' ih =>
    have hst' : st' =
        if (get_deck_id st p).isNone then add_parent_deck st p usn else st := rfl
    rw [create_missing_parents_step st n p usn hp]
    have hchain := parent_chain_some n p hp
    by_cases habs : (get_deck_id st p).isNone
    · rw [if_pos habs]
      rw [hst', if_pos habs] at ih
      have hadd := add_parent_deck_decks st p usn
      obtain ⟨ext', hdecks', husn', hnext', hprops'⟩ := ih
      have habs' : ¬ uni_present st p := by
        rw [← get_deck_id_none_iff]
        exact Option.isNone_iff_eq_none.mp habs
      refine ⟨{ id := st.next_id, name := p, kind := .normal, usn := usn } :: ext',
        ?_, ?_, ?_, ?_⟩
      · rw [hdecks', hadd.1, List.append_assoc]
        rfl
      · rw [husn', hadd.2.2]
      · rw [hadd.2.1] at hnext'
        omega
      · intro d hd
        rcases List.mem_cons.mp hd with heq | hd'
      -- the freshly created parent row
        · subst heq
          exact ⟨hchain ▸ List.mem_cons_self _ _, habs', rfl, le_refl _⟩
        · obtain ⟨hname, huni, hkind, hid⟩ := hprops' d hd'
          refine ⟨hchain ▸ List.mem_cons_of_mem p hname, ?_, hkind, ?_⟩
          · intro hu
            exact huni (Extends.uni ⟨_, hadd.1⟩ hu)
          · rw [hadd.2.1] at hid
            omega
    · rw [if_neg habs]
      rw [hst', if_neg habs] at ih
      obtain ⟨ext', hdecks', husn', hnext', hprops'⟩ := ih
      refine ⟨ext', hdecks', husn', hnext', ?_⟩
      intro d hd
      obtain ⟨hname, huni, hkind, hid⟩ := hprops' d hd
      exact ⟨hchain ▸ List.mem_cons_of_mem p hname, huni, hkind, hid⟩

theorem create_missing_parents_extends (st : Store) (n : Name) (usn : Int) :
    Extends st (create_missing_parents st n usn) := by
  obtain ⟨ext, hdecks, -⟩ := create_missing_parents_decks st n usn
  exact ⟨ext, hdecks⟩

/-- Materialization under the "good chain" hypothesis (every ancestor name
present under the collation is present verbatim) puts a verbatim row at
every level of the chain. -/
theorem create_missing_parents_chain_lit (st : Store) (n : Name) (usn : Int)
    (good : ∀ q ∈ parent_chain n, uni_present st q → lit_present st q) :
    ∀ q ∈ parent_chain n, lit_present (create_missing_parents st n usn) q := by
  induction st, n, usn using create_missing_parents.induct with
  | case2 st n usn hp =>
    intro q hq
    rw [parent_chain_none n hp] at hq
    cases hq
  | case1 st n usn p hp st' ih =>
    have hst' : st' =
        if (get_deck_id st p).isNone then add_parent_deck st p usn else st := rfl
    rw [create_missing_parents_step st n p usn hp]
    have hchain := parent_chain_some n p hp
    rw [hchain] at good
    by_cases habs : (get_deck_id st p).isNone
    · rw [if_pos habs]
      rw [hst', if_pos habs] at ih
      have hadd := add_parent_deck_decks st p usn
      set c : Deck := { id := st.next_id, name := p, kind := .normal, usn := usn }
      have hstep : Extends st (add_parent_deck st p usn) := ⟨[c], hadd.1⟩
      have hlitp : lit_present (add_parent_deck st p usn) p := by
        refine ⟨c, ?_, rfl⟩
        rw [hadd.1]
        exact List.mem_append_right _ (List.mem_cons_self _ _)
      have good' : ∀ q ∈ parent_chain p,
          uni_present (add_parent_deck st p usn) q →
          lit_present (add_parent_deck st p usn) q := by
        intro q hq hu
        obtain ⟨d, hd, hf⟩ := hu
        rw [hadd.1] at hd
        rcases mem_append_single hd with hd' | hd'
        · exact hstep.lit (good q (List.mem_cons_of_mem p hq) ⟨d, hd', hf⟩)
        · -- the new row is named p; a fold-equal chain entry is p itself
          have hfq : foldName p = foldName q := by
            rw [← hf, hd']
          have : q = p := parent_chain_entry_inj n q p
            (hchain ▸ List.mem_cons_of_mem p hq)
            (hchain ▸ List.mem_cons_self p _) (by rw [hfq])
          subst this
          exact hlitp
      intro q hq
      rw [hchain] at hq
      rcases List.mem_cons.mp hq with heq | hq'
      · subst heq
        exact (create_missing_parents_extends _ q usn).lit hlitp
      · exact ih good' q hq'
    · rw [if_neg habs]
      rw [hst', if_neg habs] at ih
      have hunip : uni_present st p := by
        rcases hopt : get_deck_id st p with hnone | i
        · rw [hopt] at habs
          simp at habs
        · exact get_deck_id_some_uni st p _ hopt
      have hlitp : lit_present st p := good p (List.mem_cons_self p _) hunip
      intro q hq
      rw [hchain] at hq
      rcases List.mem_cons.mp hq with heq | hq'
      · subst heq
        exact (create_missing_parents_extends st q usn).lit hlitp
      · exact ih (fun q' hq' => good q' (List.mem_cons_of_mem p hq')) q hq'

/-- After materialization every level of the chain has a row under the
collation (no hypotheses). -/
theorem create_missing_parents_uni_all (st : Store) (n : Name) (usn : Int) :
    ∀ q ∈ parent_chain n, uni_present (create_missing_parents st n usn) q := by
  induction st, n, usn using create_missing_parents.induct with
  | case2 st n usn hp =>
    intro q hq
    rw [parent_chain_none n hp] at hq
    cases hq
  | case1 st n usn p hp st' ih =>
    have hst' : st' =
        if (get_deck_id st p).isNone then add_parent_deck st p usn else st := rfl
    rw [create_missing_parents_step st n p usn hp]
    have hchain := parent_chain_some n p hp
    intro q hq
    rw [hchain] at hq
    by_cases habs : (get_deck_id st p).isNone
    · rw [if_pos habs]
      rw [hst', if_pos habs] at ih
      have hadd := add_parent_deck_decks st p usn
      rcases List.mem_cons.mp hq with heq | hq'
      · subst heq
        apply (create_missing_parents_extends _ q usn).uni
        refine ⟨{ id := st.next_id, name := q, kind := .normal, usn := usn }, ?_, rfl⟩
        rw [hadd.1]
        exact List.mem_append_right _ (List.mem_cons_self _ _)
      · exact ih q hq'
    · rw [if_neg habs]
      rw [hst', if_neg habs] at ih
      rcases List.mem_cons.mp hq with heq | hq'
      · subst heq
        have hunip : uni_present st q := by
          rcases hopt : get_deck_id st q with hnone | i
          · rw [hopt] at habs
            simp at habs
          · exact get_deck_id_some_uni st q _ hopt
        exact (create_missing_parents_extends st q usn).uni hunip
      · exact ih q hq'

/-- If every level of the chain already has a row, materialization is a
no-op on the store. -/
theorem create_missing_parents_noop (st : Store) (n : Name) (usn : Int)
    (hall : ∀ q ∈ parent_chain n, uni_present st q) :
    create_missing_parents st n usn = st := by
  induction st, n, usn using create_missing_parents.induct with
  | case2 st n usn hp => exact create_missing_parents_root st n usn hp
  | case1 st n usn p hp st' ih =>
    have hst' : st' =
        if (get_deck_id st p).isNone then add_parent_deck st p usn else st := rfl
    rw [create_missing_parents_step st n p usn hp]
    have hchain := parent_chain_some n p hp
    rw [hchain] at hall
    have hunip : uni_present st p := hall p (List.mem_cons_self p _)
    have hsome : get_deck_id st p ≠ none := by
      intro hcon
      exact (get_deck_id_none_iff st p).mp hcon hunip
    have habs : ¬ (get_deck_id st p).isNone := by
      rcases hopt : get_deck_id st p with hnone | i
      · exact absurd hopt hsome
      · simp
    rw [if_neg habs]
    rw [hst', if_neg habs] at ih
    exact ih (fun q hq => hall q (List.mem_cons_of_mem p hq))

/-- Materialization preserves id distinctness and next-id freshness. -/
theorem create_missing_parents_wf (st : Store) (n : Name) (usn : Int)
    (hnodup : IdsNodup st) (hnext : NextIdOk st) :
    IdsNodup (create_missing_parents st n usn) ∧
      NextIdOk (create_missing_parents st n usn) := by
  induction st, n, usn using create_missing_parents.induct with
  | case2 st n usn hp =>
    rw [create_missing_parents_root st n usn hp]
    exact ⟨hnodup, hnext⟩
  | case1 st n usn p hp st' ih =>
    have hst' : st' =
        if (get_deck_id st p).isNone then add_parent_deck st p usn else st := rfl
    rw [create_missing_parents_step st n p usn hp]
    by_cases habs : (get_deck_id st p).isNone
    · rw [if_pos habs]
      rw [hst', if_pos habs] at ih
      have hadd := add_parent_deck_decks st p usn
      apply ih
      · unfold IdsNodup
        rw [hadd.1, List.map_append, List.nodup_append]
        refine ⟨hnodup, by simp, ?_⟩
        intro i hi hj
        simp only [List.map_cons, List.map_nil, List.mem_singleton] at hj
        obtain ⟨d, hd, hdi⟩ := List.mem_map.mp hi
        have := hnext d hd
        omega
      · intro d hd
        rw [hadd.1] at hd
        rw [hadd.2.1]
        rcases mem_append_single hd with hd' | hd'
        · have := hnext d hd'
          omega
        · rw [hd']
          simp
    · rw [if_neg habs]
      rw [hst', if_neg habs] at ih
      exact ih hnodup hnext

/-! ## The matched-parent analysis -/

theorem length_splitSep_eq_count (n : Name) :
    (splitSep n).length = n.count sep + 1 := by
  induction n with
  | nil => simp [splitSep]
  | cons c rest ih =>
    cases h : splitSep rest with
    | nil => exact absurd h (splitSep_ne_nil rest)
    | cons cur parts =>
      rw [h] at ih
      by_cases hc : c = sep
      · subst hc
        have hs : splitSep (sep :: rest) = [] :: cur :: parts := by
          simp [splitSep, h]
        rw [hs, List.count_cons_self]
        simp only [List.length_cons] at ih ⊢
        omega
      · simp only [splitSep, h]
        rw [if_neg hc, List.count_cons_of_ne (Ne.symm hc)]
        simpa using ih

theorem parent_chain_length_lt (n : Name) :
    ∀ q ∈ parent_chain n, q.length < n.length := by
  induction n using parent_chain.induct with
  | case1 n p hp ih =>
    intro q hq
    rw [parent_chain_some n p hp] at hq
    have hpl := immediate_parent_name_length n p hp
    rcases List.mem_cons.mp hq with heq | hq'
    · subst heq
      exact hpl
    · exact lt_trans (ih q hq') hpl
  | case2 n hp =>
    intro q hq
    rw [parent_chain_none n hp] at hq
    cases hq

theorem parent_chain_pairwise (n : Name) :
    (parent_chain n).Pairwise (fun a b => b.length < a.length) := by
  induction n using parent_chain.induct with
  | case1 n p hp ih =>
    rw [parent_chain_some n p hp]
    exact List.Pairwise.cons (fun b hb => parent_chain_length_lt p b hb) ih
  | case2 n hp =>
    rw [parent_chain_none n hp]
    exact List.Pairwise.nil

theorem join_take_length_lt (cs : List Name) (j m : Nat)
    (hj : 1 ≤ j) (hjm : j < m) (hm : m ≤ cs.length) :
    (joinSep (cs.take j)).length < (joinSep (cs.take m)).length := by
  have hsplit : cs.take m = cs.take j ++ (cs.drop j).take (m - j) := by
    have heq := List.take_add cs j (m - j)
    rw [show j + (m - j) = m by omega] at heq
    exact heq
  have hne1 : cs.take j ≠ [] := by
    intro hnil
    have := congrArg List.length hnil
    rw [List.length_take] at this
    simp only [List.length_nil] at this
    rcases Nat.min_eq_zero_iff.mp this with h0 | h0 <;> omega
  have hne2 : (cs.drop j).take (m - j) ≠ [] := by
    intro hnil
    have := congrArg List.length hnil
    rw [List.length_take, List.length_drop] at this
    simp only [List.length_nil] at this
    rcases Nat.min_eq_zero_iff.mp this with h0 | h0 <;> omega
  rw [hsplit, joinSep_append _ _ hne1 hne2]
  simp

theorem uni_present_congr (st : Store) (q1 q2 : Name)
    (hf : foldName q1 = foldName q2) : uni_present st q1 ↔ uni_present st q2 := by
  unfold uni_present
  constructor <;> rintro ⟨d, hd, hdf⟩
  · exact ⟨d, hd, by rw [hdf, hf]⟩
  · exact ⟨d, hd, by rw [hdf, hf]⟩

/-- Transitive ancestor completeness: under `ParentComplete`, every level
of a persisted deck's ancestor chain has a verbatim row. -/
theorem parent_complete_chain_aux (st : Store) (hpc : ParentComplete st) :
    ∀ m, ∀ d ∈ st.decks, d.name.length ≤ m →
      ∀ q ∈ parent_chain d.name, lit_present st q := by
  intro m
  induction m with
  | zero =>
    intro d hd hlen q hq
    have : d.name = [] := List.length_eq_zero.mp (by omega)
    rw [parent_chain_none _ (by rw [this]; rfl)] at hq
    cases hq
  | succ m ih =>
    intro d hd hlen q hq
    cases hip : immediate_parent_name d.name with
    | none =>
      rw [parent_chain_none _ hip] at hq
      cases hq
    | some p =>
      rw [parent_chain_some _ p hip] at hq
      obtain ⟨w, hw, hwname⟩ := hpc d hd p hip
      rcases List.mem_cons.mp hq with heq | hq'
      · subst heq
        exact ⟨w, hw, hwname⟩
      · have hplen := immediate_parent_name_length _ _ hip
        apply ih w hw
        · rw [hwname]
          omega
        · rw [hwname]
          exact hq'

theorem parent_complete_chain (st : Store) (hpc : ParentComplete st)
    (d : Deck) (hd : d ∈ st.decks) :
    ∀ q ∈ parent_chain d.name, lit_present st q :=
  parent_complete_chain_aux st hpc d.name.length d hd (le_refl _)

/-- What the resolver's success tells us, in component terms: the matched
parent sits at component depth `j` of the proposed name (up to case), and
every level strictly between the deck and the matched parent has no row. -/
theorem matched_parent_chain (st : Store) (n : Name) (pd : Deck)
    (hnodup : IdsNodup st)
    (hfep : first_existing_parent st n 0 = .ok (some pd)) :
    pd ∈ st.decks ∧
    ∃ j, 1 ≤ j ∧ j < (splitSep n).length ∧
      (splitSep pd.name).length = j ∧
      foldName pd.name = foldName (joinSep ((splitSep n).take j)) ∧
      (∀ q ∈ parent_chain n, j < (splitSep q).length → ¬ uni_present st q) := by
  obtain ⟨hmem, q0, pre, post, hchain, hfold, habs⟩ :=
    first_existing_parent_ok_some st n 0 pd hnodup hfep
  have hq0mem : q0 ∈ parent_chain n := by
    rw [hchain]
    exact List.mem_append_right _ (List.mem_cons_self _ _)
  obtain ⟨j, hj1, hjlen, hq0eq, hq0split⟩ := parent_chain_entry n q0 hq0mem
  have hpdlen : (splitSep pd.name).length = j := by
    rw [← length_splitSep_foldName pd.name, hfold, length_splitSep_foldName, hq0split,
      List.length_take]
    omega
  refine ⟨hmem, j, hj1, hjlen, hpdlen, by rw [hfold, hq0eq], ?_⟩
  intro q hq hqlen
  obtain ⟨m, hm1, hmlen, hqeq, hqsplit⟩ := parent_chain_entry n q hq
  have hmj : j < m := by
    rw [hqsplit, List.length_take] at hqlen
    omega
  have hlonger : q0.length < q.length := by
    rw [hq0eq, hqeq]
    exact join_take_length_lt (splitSep n) j m hj1 hmj (by omega)
  -- an entry longer than the matched one lies in the missing stretch
  have hpw := parent_chain_pairwise n
  rw [hchain] at hpw
  rw [List.pairwise_append] at hpw
  obtain ⟨hpre, hmid, hcross⟩ := hpw
  have hqpre : q ∈ pre := by
    rw [hchain] at hq
    rcases List.mem_append.mp hq with h' | h'
    · exact h'
    · rcases List.mem_cons.mp h' with heq | h''
      · subst heq
        omega
      · have := (List.pairwise_cons.mp hmid).1 q h''
        omega
  exact habs q hqpre

/-! ## Reconciliation: unfold lemmas and the master description -/

theorem match_or_create_parents_fep_error (st : Store) (d : Deck) (usn : Int)
    (e : AnkiError) (hfep : first_existing_parent st d.name 0 = .error e) :
    match_or_create_parents st d usn = .error e := by
  unfold match_or_create_parents
  rw [hfep]

theorem match_or_create_parents_filtered (st : Store) (d : Deck) (usn : Int)
    (pd : Deck) (hfep : first_existing_parent st d.name 0 = .ok (some pd))
    (hfil : pd.is_filtered = true) :
    match_or_create_parents st d usn = .error .filtered_deck_must_be_leaf := by
  unfold match_or_create_parents
  rw [hfep]
  simp [hfil]

theorem match_or_create_parents_found (st : Store) (d : Deck) (usn : Int) (pd : Deck)
    (hfep : first_existing_parent st d.name 0 = .ok (some pd))
    (hfil : pd.is_filtered = false) :
    match_or_create_parents st d usn =
      if pd.name.count sep + 1 ≠ (splitSep d.name).length - 1 then
        .ok (create_missing_parents st
            (pd.name ++ sep :: joinSep ((splitSep d.name).drop (pd.name.count sep + 1)))
            usn,
          { d with
            name := pd.name ++
              sep :: joinSep ((splitSep d.name).drop (pd.name.count sep + 1)) })
      else
        .ok (st,
          { d with
            name := pd.name ++
              sep :: joinSep ((splitSep d.name).drop (pd.name.count sep + 1)) }) := by
  unfold match_or_create_parents
  rw [hfep]
  simp [hfil]

theorem match_or_create_parents_none_root (st : Store) (d : Deck) (usn : Int)
    (hfep : first_existing_parent st d.name 0 = .ok none)
    (hk : (splitSep d.name).length = 1) :
    match_or_create_parents st d usn = .ok (st, d) := by
  unfold match_or_create_parents
  rw [hfep]
  simp [hk]

theorem match_or_create_parents_none_create (st : Store) (d : Deck) (usn : Int)
    (hfep : first_existing_parent st d.name 0 = .ok none)
    (hk : (splitSep d.name).length ≠ 1) :
    match_or_create_parents st d usn =
      .ok (create_missing_parents st d.name usn, d) := by
  unfold match_or_create_parents
  rw [hfep]
  simp [hk]

/-- What successful reconciliation guarantees over a well-formed store:
the deck keeps its id, kind and usn; every level of the resulting name's
ancestor chain has a verbatim row afterwards; every level either already
had a verbatim row or had no row at all before; the store only grows, by
fresh rows named along the new chain; and id bookkeeping survives. -/
theorem match_or_create_parents_ok (st : Store) (d : Deck) (usn : Int)
    (st1 : Store) (d2 : Deck)
    (hnodup : IdsNodup st) (hnext : NextIdOk st) (hpc : ParentComplete st)
    (h : match_or_create_parents st d usn = .ok (st1, d2)) :
    d2.id = d.id ∧ d2.kind = d.kind ∧ d2.usn = d.usn ∧
    (∀ q ∈ parent_chain d2.name, lit_present st1 q) ∧
    (∀ q ∈ parent_chain d2.name, lit_present st q ∨ ¬ uni_present st q) ∧
    (∃ ext, st1.decks = st.decks ++ ext ∧
      ∀ e ∈ ext, e.name ∈ parent_chain d2.name ∧ ¬ uni_present st e.name ∧
        st.next_id ≤ e.id) ∧
    IdsNodup st1 ∧ NextIdOk st1 ∧ st.next_id ≤ st1.next_id := by
  cases hfep : first_existing_parent st d.name 0 with
  | error e =>
    rw [match_or_create_parents_fep_error st d usn e hfep] at h
    cases h
  | ok o =>
    cases o with
    | none =>
      by_cases hk : (splitSep d.name).length = 1
      · rw [match_or_create_parents_none_root st d usn hfep hk] at h
        have h' : st = st1 ∧ d = d2 := by
          simp only [Except.ok.injEq, Prod.mk.injEq] at h
          exact h
        obtain ⟨rfl, rfl⟩ := h'
        have hipn : immediate_parent_name d.name = none := by
          rw [immediate_parent_name_eq_components, if_neg (by omega)]
        have hchain := parent_chain_none _ hipn
        rw [hchain]
        exact ⟨rfl, rfl, rfl, by simp, by simp, ⟨[], by simp, by simp⟩,
          hnodup, hnext, le_refl _⟩
      · rw [match_or_create_parents_none_create st d usn hfep hk] at h
        have h' : create_missing_parents st d.name usn = st1 ∧ d = d2 := by
          simp only [Except.ok.injEq, Prod.mk.injEq] at h
          exact h
        obtain ⟨rfl, rfl⟩ := h'
        have habs := first_existing_parent_ok_none st d.name 0 hfep
        have good : ∀ q ∈ parent_chain d.name, uni_present st q → lit_present st q :=
          fun q hq hu => absurd hu (habs q hq)
        obtain ⟨ext, hdecks, husn, hnid, hprops⟩ :=
          create_missing_parents_decks st d.name usn
        have wf := create_missing_parents_wf st d.name usn hnodup hnext
        exact ⟨rfl, rfl, rfl, create_missing_parents_chain_lit st d.name usn good,
          fun q hq => Or.inr (habs q hq),
          ⟨ext, hdecks, fun e he =>
            ⟨(hprops e he).1, (hprops e he).2.1, (hprops e he).2.2.2⟩⟩,
          wf.1, wf.2, hnid⟩
    | some pd =>
      by_cases hfil : pd.is_filtered
      · rw [match_or_create_parents_filtered st d usn pd hfep hfil] at h
        cases h
      · have hfil' : pd.is_filtered = false := by
          rwa [Bool.not_eq_true] at hfil
        rw [match_or_create_parents_found st d usn pd hfep hfil'] at h
        obtain ⟨hmem, j, hj1, hjk, hpdlen, hfoldpd, hmiss⟩ :=
          matched_parent_chain st d.name pd hnodup hfep
        have hcount : pd.name.count sep + 1 = j := by
          rw [← length_splitSep_eq_count]
          exact hpdlen
        rw [hcount] at h
        set cs := splitSep d.name with hcs
        set rest := cs.drop j with hrestdef
        set newName := pd.name ++ sep :: joinSep rest with hnewdef
        have hps_ne : splitSep pd.name ≠ [] := splitSep_ne_nil pd.name
        have hrest_ne : rest ≠ [] := by
          intro hnil
          have := congrArg List.length hnil
          rw [hrestdef, List.length_drop] at this
          simp only [List.length_nil] at this
          omega
        have hrest_free : ∀ x ∈ rest, sep ∉ x := fun x hx =>
          mem_splitSep_sepFree d.name x (List.drop_subset _ _ hx)
        have hsplitnew : splitSep newName = splitSep pd.name ++ rest := by
          rw [hnewdef, splitSep_append, splitSep_joinSep rest hrest_ne hrest_free]
        have hlennew : (splitSep newName).length = cs.length := by
          rw [hsplitnew, List.length_append, hpdlen, hrestdef, List.length_drop]
          omega
        have hps_take : ∀ m, m ≤ j → (splitSep newName).take m = (splitSep pd.name).take m := by
          intro m hm
          rw [hsplitnew, List.take_append_of_le_length (by omega)]
        -- every chain level of the new name at or below the matched depth
        -- has a verbatim row already
        have hflit : ∀ q ∈ parent_chain newName, (splitSep q).length ≤ j →
            lit_present st q := by
          intro q hq hlen
          obtain ⟨m, hm1, hmk, hqeq, hqsplit⟩ := parent_chain_entry newName q hq
          rw [hlennew] at hmk
          rw [hqsplit, List.length_take, hlennew,
            Nat.min_eq_left (le_of_lt hmk)] at hlen
          rcases Nat.lt_or_ge m j with hmlt | hmge
          · have hqmem : q ∈ parent_chain pd.name := by
              rw [parent_chain_mem_iff]
              refine ⟨m, hm1, by omega, ?_⟩
              rw [hqeq, hps_take m (le_of_lt hmlt)]
            exact parent_complete_chain st hpc pd hmem q hqmem
          · have hmj' : m = j := by omega
            have hqpd : q = pd.name := by
              rw [hqeq, hps_take m hlen, hmj', ← hpdlen, List.take_length,
                joinSep_splitSep]
            exact ⟨pd, hmem, hqpd.symm⟩
        -- every chain level of the new name beyond the matched depth had
        -- no row at all
        have hfabs : ∀ q ∈ parent_chain newName, j < (splitSep q).length →
            ¬ uni_present st q := by
          intro q hq hlen
          obtain ⟨m, hm1, hmk, hqeq, hqsplit⟩ := parent_chain_entry newName q hq
          rw [hlennew] at hmk
          rw [hqsplit, List.length_take, hlennew,
            Nat.min_eq_left (le_of_lt hmk)] at hlen
          have htakeps : (splitSep pd.name).take m = splitSep pd.name :=
            List.take_of_length_le (by omega)
          have htake : (splitSep newName).take m = splitSep pd.name ++ rest.take (m - j) := by
            rw [hsplitnew, List.take_append_eq_append_take, htakeps, hpdlen]
          have hXne : rest.take (m - j) ≠ [] := by
            intro hnil
            have := congrArg List.length hnil
            rw [List.length_take, hrestdef, List.length_drop] at this
            simp only [List.length_nil] at this
            rcases Nat.min_eq_zero_iff.mp this with h0 | h0 <;> omega
          have htakej_ne : cs.take j ≠ [] := by
            intro hnil
            have := congrArg List.length hnil
            rw [List.length_take] at this
            simp only [List.length_nil] at this
            rcases Nat.min_eq_zero_iff.mp this with h0 | h0 <;> omega
          have horig_take : cs.take m = cs.take j ++ rest.take (m - j) := by
            have heq := List.take_add cs j (m - j)
            rw [show j + (m - j) = m by omega] at heq
            rw [heq, hrestdef]
          have hL : foldName q =
              foldName pd.name ++ sep :: foldName (joinSep (rest.take (m - j))) := by
            rw [hqeq, htake, joinSep_append _ _ hps_ne hXne, joinSep_splitSep,
              foldName_append, foldName_sep_cons]
          have hR : foldName (joinSep (cs.take m)) =
              foldName (joinSep (cs.take j)) ++
                sep :: foldName (joinSep (rest.take (m - j))) := by
            rw [horig_take, joinSep_append _ _ htakej_ne hXne, foldName_append,
              foldName_sep_cons]
          have hfoldq : foldName q = foldName (joinSep (cs.take m)) := by
            rw [hL, hR, hfoldpd]
          have hsplit_orig : splitSep (joinSep (cs.take m)) = cs.take m :=
            splitSep_joinSep _ (by
              intro hnil
              have := congrArg List.length hnil
              rw [List.length_take] at this
              simp only [List.length_nil] at this
              rcases Nat.min_eq_zero_iff.mp this with h0 | h0 <;> omega)
              (fun x hx => mem_splitSep_sepFree d.name x (List.take_subset _ _ hx))
          have hmem_orig : joinSep (cs.take m) ∈ parent_chain d.name := by
            rw [parent_chain_mem_iff]
            exact ⟨m, hm1, by rw [← hcs]; omega, rfl⟩
          intro hu
          refine hmiss (joinSep (cs.take m)) hmem_orig ?_
            ((uni_present_congr st q _ hfoldq).mp hu)
          rw [hsplit_orig, List.length_take, Nat.min_eq_left (le_of_lt hmk)]
          omega
        by_cases hnc : j ≠ cs.length - 1
        · rw [if_pos hnc] at h
          have h' : create_missing_parents st newName usn = st1 ∧
              ({ d with name := newName } : Deck) = d2 := by
            simp only [Except.ok.injEq, Prod.mk.injEq] at h
            exact h
          obtain ⟨rfl, rfl⟩ := h'
          have good : ∀ q ∈ parent_chain newName, uni_present st q →
              lit_present st q := by
            intro q hq hu
            rcases le_or_lt (splitSep q).length j with hle | hgt
            · exact hflit q hq hle
            · exact absurd hu (hfabs q hq hgt)
          obtain ⟨ext, hdecks, husn, hnid, hprops⟩ :=
            create_missing_parents_decks st newName usn
          have wf := create_missing_parents_wf st newName usn hnodup hnext
          refine ⟨rfl, rfl, rfl, ?_, ?_, ⟨ext, hdecks, ?_⟩, wf.1, wf.2, hnid⟩
          · exact create_missing_parents_chain_lit st newName usn good
          · intro q hq
            rcases le_or_lt (splitSep q).length j with hle | hgt
            · exact Or.inl (hflit q hq hle)
            · exact Or.inr (hfabs q hq hgt)
          · exact fun e he =>
              ⟨(hprops e he).1, (hprops e he).2.1, (hprops e he).2.2.2⟩
        · rw [if_neg hnc] at h
          have h' : st = st1 ∧ ({ d with name := newName } : Deck) = d2 := by
            simp only [Except.ok.injEq, Prod.mk.injEq] at h
            exact h
          obtain ⟨rfl, rfl⟩ := h'
          have hall : ∀ q ∈ parent_chain newName, lit_present st q := by
            intro q hq
            obtain ⟨m, hm1, hmk, hqeq, hqsplit⟩ := parent_chain_entry newName q hq
            rw [hlennew] at hmk
            apply hflit q hq
            rw [hqsplit, List.length_take, hlennew,
              Nat.min_eq_left (le_of_lt hmk)]
            omega
          exact ⟨rfl, rfl, rfl, hall, fun q hq => Or.inl (hall q hq),
            ⟨[], by simp, by simp⟩, hnodup, hnext, le_refl _⟩

/-! ## The rename cascade, the row update, and the post-pass -/

theorem unique_names_eq (st : Store) (hu : UniqueNames st) (a b : Deck)
    (ha : a ∈ st.decks) (hb : b ∈ st.decks)
    (hf : foldName a.name = foldName b.name) : a = b := by
  by_contra hne
  have hsym : Symmetric (fun (a b : Deck) => foldName a.name ≠ foldName b.name) := by
    intro x y hxy hyx
    exact hxy hyx.symm
  exact List.Pairwise.forall hsym hu ha hb hne hf

/-- A name is never a strict descendant of itself. -/
theorem isSeg_self_false (o : Name) :
    isSeg (foldName (o ++ [sep])) (foldName o) = false := by
  rw [Bool.eq_false_iff]
  intro hcon
  obtain ⟨t, ht⟩ := (isSeg_iff _ _).mp hcon
  have hl := congrArg List.length ht
  rw [foldName_length, List.length_append, foldName_length, List.length_append] at hl
  simp only [List.length_singleton] at hl
  omega

/-- Descendant matching transports along the collation. -/
theorem isSeg_fold_congr (a x y : Name) (hf : foldName x = foldName y)
    (h : isSeg a (foldName x) = true) : isSeg a (foldName y) = true := by
  rwa [hf] at h

/-- A deck under a descendant is itself a descendant: if `p` matches the
descendant pattern and `x = p ++ sep :: t`, so does `x`. -/
theorem isSeg_extend (a p : Name) (t : Name)
    (h : isSeg a (foldName p) = true) :
    isSeg a (foldName (p ++ sep :: t)) = true := by
  obtain ⟨t0, ht0⟩ := (isSeg_iff _ _).mp h
  rw [isSeg_iff]
  refine ⟨t0 ++ sep :: foldName t, ?_⟩
  rw [foldName_append, foldName_sep_cons, ht0, List.append_assoc]

/-- The base descendant fact: `o ++ sep :: t` matches the descendant
pattern of `o`. -/
theorem isSeg_desc_base (o t : Name) :
    isSeg (foldName (o ++ [sep])) (foldName (o ++ sep :: t)) = true := by
  rw [isSeg_iff]
  refine ⟨foldName t, ?_⟩
  rw [foldName_append, foldName_append, foldName_sep_cons]
  simp [foldName, foldChar_sep, List.append_assoc]

/-- The structure of a row matched by the descendant pattern of `o`: its
name splits at character position `o.length` into a fold-equal copy of `o`,
the separator, and a tail. -/
theorem desc_structure (o x : Name)
    (h : isSeg (foldName (o ++ [sep])) (foldName x) = true) :
    x = x.take o.length ++ sep :: x.drop (o.length + 1) ∧
    foldName (x.take o.length) = foldName o ∧
    o.length + 1 ≤ x.length := by
  obtain ⟨t, ht⟩ := (isSeg_iff _ _).mp h
  have hsepfold : foldName (o ++ [sep]) = foldName o ++ [sep] := by
    rw [foldName_append]
    simp [foldName, foldChar_sep]
  have ht' : foldName x = foldName o ++ sep :: t := by
    rw [ht, hsepfold, List.append_assoc]
    rfl
  have hxlen : x.length = o.length + 1 + t.length := by
    have hl := congrArg List.length ht'
    rw [foldName_length, List.length_append, List.length_cons, foldName_length] at hl
    omega
  have htakefold : foldName (x.take o.length) = foldName o := by
    have hmap : foldName (x.take o.length) = (foldName x).take o.length := by
      simp [foldName, List.map_take]
    rw [hmap, ht', ← foldName_length o, List.take_left]
  have hdropfold : foldName (x.drop o.length) = sep :: t := by
    have hmap : foldName (x.drop o.length) = (foldName x).drop o.length := by
      simp [foldName, List.map_drop]
    rw [hmap, ht', ← foldName_length o, List.drop_left]
  cases hd : x.drop o.length with
  | nil =>
    rw [hd] at hdropfold
    cases hdropfold
  | cons c rest =>
    rw [hd] at hdropfold
    have hcrest : foldChar c = sep ∧ foldName rest = t := by
      simp only [foldName, List.map_cons, List.cons.injEq] at hdropfold
      exact ⟨hdropfold.1, hdropfold.2⟩
    have hc : c = sep := (foldChar_eq_sep_iff c).mp hcrest.1
    have hdrop1 : x.drop (o.length + 1) = rest := by
      have hdd := List.drop_drop 1 o.length x
      rw [hd] at hdd
      simp only [List.drop_one, List.tail_cons] at hdd
      exact hdd.symm
    constructor
    · rw [hdrop1]
      conv_lhs => rw [← List.take_append_drop o.length x]
      rw [hd, hc]
    · exact ⟨htakefold, by omega⟩

/-- Dropping the prefix part commutes between a descendant name and its
immediate parent name, when the parent keeps at least the prefix. -/
theorem drop_parent_comm (x p : Name) (L : Nat)
    (hp : immediate_parent_name x = some p) (hL : L + 1 ≤ p.length) :
    immediate_parent_name (x.drop (L + 1)) = some (p.drop (L + 1)) := by
  obtain ⟨t, hx, hfree⟩ := immediate_parent_name_struct x p hp
  have hdx : x.drop (L + 1) = p.drop (L + 1) ++ sep :: t := by
    rw [hx, List.drop_append_of_le_length (by omega)]
  rw [hdx]
  exact immediate_parent_name_append_sepFree _ t hfree

/-- The post-pass: materializing over a store whose every row either has
its parent verbatim or has a parent on the chain being materialized yields
full ancestor completeness. -/
theorem create_missing_parents_parent_complete (st : Store) (m : Name) (usn : Int)
    (H1 : ∀ q ∈ parent_chain m, uni_present st q → lit_present st q)
    (H2 : ∀ x ∈ st.decks, ∀ p, immediate_parent_name x.name = some p →
      (lit_present st p ∨ p ∈ parent_chain m)) :
    ParentComplete (create_missing_parents st m usn) := by
  intro x hx p hp
  obtain ⟨ext, hdecks, -, -, hprops⟩ := create_missing_parents_decks st m usn
  have hchain_lit := create_missing_parents_chain_lit st m usn H1
  rw [hdecks] at hx
  rcases List.mem_append.mp hx with hx' | hx'
  · rcases H2 x hx' p hp with hl | hc
    · exact (create_missing_parents_extends st m usn).lit hl
    · exact hchain_lit p hc
  · have hname := (hprops x hx').1
    have hpmem : p ∈ parent_chain m := parent_chain_closed m x.name hname p hp
    exact hchain_lit p hpmem

theorem prepare_deck_for_update_fields (env : NameEnv) (st : Store) (deck : Deck)
    (usn : Int) :
    (prepare_deck_for_update env st deck usn).id = deck.id ∧
    (prepare_deck_for_update env st deck usn).kind = deck.kind := by
  unfold prepare_deck_for_update ensure_deck_name_unique
  dsimp only
  split <;> split <;> exact ⟨rfl, rfl⟩

/-! ## Ancestor completeness through add and update -/

theorem add_deck_inner_parent_complete (env : NameEnv) (st : Store) (deck : Deck)
    (usn : Int) (st' : Store) (d' : Deck)
    (hnodup : IdsNodup st) (hnext : NextIdOk st) (hpc : ParentComplete st)
    (h : add_deck_inner env st deck usn = .ok (st', d')) :
    ParentComplete st' := by
  simp only [add_deck_inner] at h
  cases hm : match_or_create_parents st
      ((prepare_deck_for_update env st deck usn).set_modified usn) usn with
  | error e =>
    rw [hm] at h
    cases h
  | ok pair =>
    obtain ⟨st1, d2⟩ := pair
    rw [hm] at h
    simp only [Except.ok.injEq] at h
    obtain ⟨hid2, hkind2, husn2, hlit1, hlitor, ⟨ext, hext, hextprops⟩,
      hnodup1, hnext1, hnid1⟩ :=
      match_or_create_parents_ok st _ usn st1 d2 hnodup hnext hpc hm
    have hst' : st' = (add_deck_undoable st1 d2).1 := by
      rw [h]
    have hdecks' : st'.decks = st1.decks ++ [{ d2 with id := st1.next_id }] := by
      rw [hst']
      rfl
    intro x hx p hp
    rw [hdecks'] at hx
    rcases mem_append_single hx with hx' | hx'
    · rw [hext] at hx'
      rcases List.mem_append.mp hx' with hx'' | hx''
      · obtain ⟨w, hw, hwname⟩ := hpc x hx'' p hp
        refine ⟨w, ?_, hwname⟩
        rw [hdecks', hext]
        exact List.mem_append_left _ (List.mem_append_left _ hw)
      · have hpm : p ∈ parent_chain d2.name :=
          parent_chain_closed d2.name x.name (hextprops x hx'').1 p hp
        obtain ⟨w, hw, hwname⟩ := hlit1 p hpm
        refine ⟨w, ?_, hwname⟩
        rw [hdecks']
        exact List.mem_append_left _ hw
    · subst hx'
      have hp2 : immediate_parent_name d2.name = some p := hp
      have hpm : p ∈ parent_chain d2.name := by
        rw [parent_chain_some d2.name p hp2]
        exact List.mem_cons_self p _
      obtain ⟨w, hw, hwname⟩ := hlit1 p hpm
      refine ⟨w, ?_, hwname⟩
      rw [hdecks']
      exact List.mem_append_left _ hw

theorem drop_append_cons (A : Name) (c : Char) (B : Name) :
    (A ++ c :: B).drop (A.length + 1) = B := by
  have h1 : (A ++ c :: B).drop A.length = c :: B := List.drop_left A (c :: B)
  have h2 := List.drop_drop 1 A.length (A ++ c :: B)
  rw [h1] at h2
  simp only [List.drop_one, List.tail_cons] at h2
  exact h2.symm

/-- The update path preserves ancestor completeness: reconciliation plus
the child-rename cascade, the row rewrite, and the grandparent post-pass
leave every persisted deck with its immediate parent persisted. -/
theorem update_deck_inner_parent_complete (env : NameEnv) (st : Store)
    (deck original : Deck) (usn : Int) (st' : Store) (d' : Deck)
    (hnodup : IdsNodup st) (hnext : NextIdOk st) (huniq : UniqueNames st)
    (hpc : ParentComplete st)
    (horig : original ∈ st.decks) (hoid : original.id = deck.id)
    (h : update_deck_inner env st deck original usn = .ok (st', d')) :
    ParentComplete st' := by
  simp only [update_deck_inner] at h
  have hd1fields := prepare_deck_for_update_fields env st deck usn
  set d1 : Deck := (prepare_deck_for_update env st deck usn).set_modified usn with hd1def
  have hd1id : d1.id = deck.id := hd1fields.1
  by_cases hchg : original.name ≠ d1.name
  · -- the name changed
    rw [if_pos hchg] at h
    cases hm : match_or_create_parents st d1 usn with
    | error e =>
      rw [hm] at h
      cases h
    | ok pair =>
      obtain ⟨st1, d2⟩ := pair
      rw [hm] at h
      simp only [Except.ok.injEq, Prod.mk.injEq] at h
      obtain ⟨hst', hd'⟩ := h
      obtain ⟨hid2, hkind2, husn2, hlit1, hlitor, ⟨ext, hext, hextprops⟩,
        hnodup1, hnext1, hnid1⟩ :=
        match_or_create_parents_ok st d1 usn st1 d2 hnodup hnext hpc hm
      have hd2id : d2.id = deck.id := by rw [hid2, hd1id]
      set L := original.name.length with hLdef
      set A := foldName (original.name ++ [sep]) with hAdef
      set ren : Deck → Deck := fun e =>
        if isSeg A (foldName e.name) then
          ({ e with name := d2.name ++ sep :: e.name.drop (L + 1) }).set_modified usn
        else e with hrendef
      set g : Deck → Deck := fun x => if x.id == d2.id then d2 else x with hgdef
      set st2 := rename_child_decks st1 original d2.name usn with hst2def
      set st3 := update_single_deck_undoable st2 d2 original with hst3def
      have hst2decks : st2.decks = st1.decks.map ren := rfl
      have hst3decks : st3.decks = (st1.decks.map ren).map g := rfl
      have horig1 : original ∈ st1.decks := by
        rw [hext]
        exact List.mem_append_left _ horig
      have hid_orig1 : ∀ w ∈ st1.decks, w.id = d2.id → w = original := by
        intro w hw hwid
        exact mem_id_unique st1 hnodup1 w original hw horig1
          (by rw [hwid, hd2id, ← hoid])
      have hcond_orig : isSeg A (foldName original.name) = false := isSeg_self_false _
      have hren_id : ∀ e, (ren e).id = e.id := by
        intro e
        rw [hrendef]
        dsimp only
        split <;> rfl
      -- the rewritten row itself
      have hmem_d2 : d2 ∈ st3.decks := by
        rw [hst3decks]
        refine List.mem_map.mpr ⟨ren original, List.mem_map.mpr ⟨original, horig1, rfl⟩, ?_⟩
        rw [hrendef]
        dsimp only
        rw [hcond_orig]
        simp only [Bool.false_eq_true, if_false, hgdef]
        rw [if_pos (by rw [hoid, ← hd2id]; exact beq_self_eq_true _)]
      have hlit3_d2 : lit_present st3 d2.name := ⟨d2, hmem_d2, rfl⟩
      -- rows that are not descendants and not the target survive verbatim
      have hsurv : ∀ w ∈ st1.decks, isSeg A (foldName w.name) = false →
          w.id ≠ d2.id → w ∈ st3.decks := by
        intro w hw hcond hwid
        rw [hst3decks]
        refine List.mem_map.mpr ⟨ren w, List.mem_map.mpr ⟨w, hw, rfl⟩, ?_⟩
        have hrw : ren w = w := by
          rw [hrendef]
          dsimp only
          rw [hcond]
          simp
        rw [hrw, hgdef]
        dsimp only
        rw [if_neg (by simpa using hwid)]
      -- descendant rows survive as their renamed image
      have hsurv_ren : ∀ w ∈ st1.decks, isSeg A (foldName w.name) = true →
          w.id ≠ d2.id →
          ({ w with name := d2.name ++ sep :: w.name.drop (L + 1) }).set_modified usn
            ∈ st3.decks := by
        intro w hw hcond hwid
        rw [hst3decks]
        refine List.mem_map.mpr ⟨ren w, List.mem_map.mpr ⟨w, hw, rfl⟩, ?_⟩
        have hrw : ren w =
            ({ w with name := d2.name ++ sep :: w.name.drop (L + 1) }).set_modified usn := by
          rw [hrendef]
          dsimp only
          rw [hcond]
          simp
        rw [hrw, hgdef]
        dsimp only
        rw [if_neg (by simpa using hwid)]
      -- inventory of the rows after the rename and the row rewrite
      have hst3_cases : ∀ x ∈ st3.decks, x = d2 ∨
          ∃ w ∈ st1.decks, w.id ≠ d2.id ∧
            ((isSeg A (foldName w.name) = false ∧ x = w) ∨
             (isSeg A (foldName w.name) = true ∧
               x = ({ w with name := d2.name ++ sep :: w.name.drop (L + 1) }).set_modified usn)) := by
        intro x hx
        rw [hst3decks] at hx
        obtain ⟨y, hy, hgy⟩ := List.mem_map.mp hx
        obtain ⟨w, hw, hrw⟩ := List.mem_map.mp hy
        by_cases hwid : w.id = d2.id
        · left
          have hworig : w = original := hid_orig1 w hw hwid
          subst hworig
          rw [← hgy, ← hrw, hgdef]
          dsimp only
          rw [hren_id w, if_pos (by rw [hwid]; exact beq_self_eq_true _)]
        · right
          refine ⟨w, hw, hwid, ?_⟩
          have hgy' : x = y := by
            rw [← hgy, hgdef]
            dsimp only
            rw [if_neg (by rw [← hrw, hren_id w]; simpa using hwid)]
          by_cases hcond : isSeg A (foldName w.name) = true
          · right
            refine ⟨hcond, ?_⟩
            rw [hgy', ← hrw, hrendef]
            dsimp only
            rw [hcond]
            simp
          · left
            refine ⟨by rwa [Bool.not_eq_true] at hcond, ?_⟩
            rw [hgy', ← hrw, hrendef]
            dsimp only
            rw [Bool.not_eq_true] at hcond
            rw [hcond]
            simp
      -- (H2) every row of st3 has its parent verbatim or on the chain
      have H2 : ∀ x ∈ st3.decks, ∀ p, immediate_parent_name x.name = some p →
          (lit_present st3 p ∨ p ∈ parent_chain d2.name) := by
        intro x hx p hp
        rcases hst3_cases x hx with hxd2 | ⟨w, hw, hwid, hcase⟩
        · -- the rewritten row: its parent heads the chain
          subst hxd2
          right
          rw [parent_chain_some _ p hp]
          exact List.mem_cons_self p _
        rcases hcase with ⟨hcond, hxw⟩ | ⟨hcond, hxw⟩
        · -- an untouched row
          subst hxw
          rw [hext] at hw
          rcases List.mem_append.mp hw with hwst | hwext
          · -- it was in the original store: its old witness survives
            obtain ⟨v, hv, hvname⟩ := hpc x hwst p hp
            by_cases hvid : v.id = deck.id
            · -- the witness was the updated row itself: then x would be
              -- a descendant of the original name, contradiction
              exfalso
              have hvorig : v = original :=
                mem_id_unique st hnodup v original hv horig (by rw [hvid, hoid])
              obtain ⟨t, hxstruct, -⟩ := immediate_parent_name_struct x.name p hp
              have : isSeg A (foldName x.name) = true := by
                rw [hxstruct, ← hvname, hvorig, hAdef]
                exact isSeg_desc_base original.name t
              rw [this] at hcond
              cases hcond
            · by_cases hvcond : isSeg A (foldName v.name) = true
              · -- the witness was a descendant: then so is x, contradiction
                exfalso
                obtain ⟨t, hxstruct, -⟩ := immediate_parent_name_struct x.name p hp
                have : isSeg A (foldName x.name) = true := by
                  rw [hxstruct, ← hvname]
                  exact isSeg_extend A v.name t hvcond
                rw [this] at hcond
                cases hcond
              · left
                rw [Bool.not_eq_true] at hvcond
                refine ⟨v, ?_, hvname⟩
                refine hsurv v (by rw [hext]; exact List.mem_append_left _ hv) hvcond ?_
                rw [hd2id]
                exact hvid
          · -- it was created by reconciliation: its parent is on the chain
            right
            exact parent_chain_closed d2.name x.name (hextprops x hwext).1 p hp
        · -- a renamed descendant
          subst hxw
          obtain ⟨hwstruct, hwtakefold, hwlen⟩ := desc_structure original.name w.name hcond
          have htlen : (w.name.take L).length = L := by
            rw [List.length_take]
            omega
          simp only [Deck.set_modified] at hp
          by_cases hsep : sep ∈ w.name.drop (L + 1)
          · -- deep descendant: the parent is the renamed image of the
            -- descendant's old parent
            cases hpt : immediate_parent_name (w.name.drop (L + 1)) with
            | none =>
              rw [immediate_parent_name_eq_none] at hpt
              exact absurd hsep hpt
            | some pt =>
              have hpx : immediate_parent_name
                  (d2.name ++ sep :: w.name.drop (L + 1)) =
                  some (d2.name ++ sep :: pt) :=
                immediate_parent_name_append_deep _ _ pt hpt
              have hpeq : p = d2.name ++ sep :: pt := by
                rw [hp] at hpx
                exact (Option.some.injEq _ _).mp hpx
              -- the old parent of w
              have hpOld : immediate_parent_name w.name =
                  some (w.name.take L ++ sep :: pt) := by
                conv_lhs => rw [hwstruct]
                exact immediate_parent_name_append_deep _ _ pt hpt
              -- a verbatim witness of the old parent in st1
              have hvex : ∃ v ∈ st1.decks, v.name = w.name.take L ++ sep :: pt := by
                rw [hext] at hw
                rcases List.mem_append.mp hw with hwst | hwext
                · obtain ⟨v, hv, hvname⟩ := hpc w hwst _ hpOld
                  exact ⟨v, by rw [hext]; exact List.mem_append_left _ hv, hvname⟩
                · have hpm : (w.name.take L ++ sep :: pt) ∈ parent_chain d2.name :=
                    parent_chain_closed d2.name w.name (hextprops w hwext).1 _ hpOld
                  exact hlit1 _ hpm
              obtain ⟨v, hv1, hvname⟩ := hvex
              have hvcond : isSeg A (foldName v.name) = true := by
                rw [hvname, isSeg_iff]
                refine ⟨foldName pt, ?_⟩
                rw [foldName_append, foldName_sep_cons, hwtakefold, hAdef,
                  foldName_append]
                simp [foldName, foldChar_sep, List.append_assoc]
              have hvid : v.id ≠ d2.id := by
                intro hvid
                have hvorig : v = original := hid_orig1 v hv1 hvid
                have := congrArg List.length hvname
                rw [hvorig] at this
                simp only [List.length_append, List.length_cons, htlen] at this
                omega
              have hvmem := hsurv_ren v hv1 hvcond hvid
              left
              refine ⟨_, hvmem, ?_⟩
              have hdrop := drop_append_cons (w.name.take L) sep pt
              rw [htlen] at hdrop
              show d2.name ++ sep :: v.name.drop (L + 1) = p
              rw [hpeq, hvname, hdrop]
          · -- shallow descendant: its parent is the rewritten row itself
            have hpx : immediate_parent_name
                (d2.name ++ sep :: w.name.drop (L + 1)) = some d2.name :=
              immediate_parent_name_append_sepFree _ _ hsep
            have hpeq : p = d2.name := by
              rw [hp] at hpx
              exact (Option.some.injEq _ _).mp hpx
            left
            rw [hpeq]
            exact hlit3_d2
      -- (H1) chain levels of the new name: any row matching a level under
      -- the collation forces a verbatim row
      have H1 : ∀ q ∈ parent_chain d2.name, uni_present st3 q →
          lit_present st3 q := by
        intro q hq hu
        obtain ⟨x, hx, hxfold⟩ := hu
        have hqlen := parent_chain_entry_length d2.name q hq
        rcases hst3_cases x hx with hxd2 | ⟨w, hw, hwid, hcase⟩
        · -- the rewritten row has as many components as the new name,
          -- more than any chain level
          exfalso
          rw [hxd2] at hxfold
          rw [← length_splitSep_foldName d2.name, hxfold,
            length_splitSep_foldName] at hqlen
          omega
        rcases hcase with ⟨hcond, hxw⟩ | ⟨hcond, hxw⟩
        · -- an untouched row matching the level
          have hwfold : foldName w.name = foldName q := by
            rw [← hxw]
            exact hxfold
          by_cases hqdesc : isSeg A (foldName q) = true
          · -- a descendant-pattern level would have forced a rename
            exfalso
            have hwdesc : isSeg A (foldName w.name) = true := by
              rw [hwfold]
              exact hqdesc
            rw [hcond] at hwdesc
            exact Bool.false_ne_true hwdesc
          · rcases hlitor q hq with hql | hqa
            · obtain ⟨v, hv, hvname⟩ := hql
              by_cases hvid : v.id = deck.id
              · -- the old verbatim witness was the updated row: the
                -- untouched row would collide in the unique name index
                exfalso
                have hvorig : v = original :=
                  mem_id_unique st hnodup v original hv horig (by rw [hvid, hoid])
                have hofold : foldName original.name = foldName q := by
                  rw [← hvname, hvorig]
                rw [hext] at hw
                rcases List.mem_append.mp hw with hwst | hwext
                · have hwo : w = original := unique_names_eq st huniq w original hwst
                    horig (by rw [hwfold, hofold])
                  rw [hwo, hoid, ← hd2id] at hwid
                  exact hwid rfl
                · exact (hextprops w hwext).2.1
                    ⟨original, horig, by rw [hofold, hwfold]⟩
              · by_cases hvcond : isSeg A (foldName v.name) = true
                · exfalso
                  rw [hvname] at hvcond
                  exact hqdesc hvcond
                · rw [Bool.not_eq_true] at hvcond
                  refine ⟨v, ?_, hvname⟩
                  refine hsurv v (by rw [hext]; exact List.mem_append_left _ hv)
                    hvcond ?_
                  rw [hd2id]
                  exact hvid
            · -- no row matched the level before, so the matching row is a
              -- created one: verbatim on the chain, and it survives
              rw [hext] at hw
              rcases List.mem_append.mp hw with hwst | hwext
              · exact absurd ⟨w, hwst, hwfold⟩ hqa
              · have hwq : w.name = q := parent_chain_entry_inj d2.name w.name q
                  (hextprops w hwext).1 hq hwfold
                exact ⟨w, hsurv w (by rw [hext]; exact List.mem_append_right _ hwext)
                  hcond hwid, hwq⟩
        · -- a renamed row has more components than any chain level
          exfalso
          have hxname : x.name = d2.name ++ sep :: w.name.drop (L + 1) := by
            rw [hxw]
            rfl
          rw [hxname] at hxfold
          have hxsplit : (splitSep (d2.name ++ sep :: w.name.drop (L + 1))).length =
              (splitSep d2.name).length + (splitSep (w.name.drop (L + 1))).length := by
            rw [splitSep_append, List.length_append]
          have h1 : 1 ≤ (splitSep (w.name.drop (L + 1))).length := by
            have hne := splitSep_ne_nil (w.name.drop (L + 1))
            cases hsp : splitSep (w.name.drop (L + 1)) with
            | nil => exact absurd hsp hne
            | cons a l => simp
          have hlen_eq : (splitSep (d2.name ++ sep :: w.name.drop (L + 1))).length =
              (splitSep q).length := by
            rw [← length_splitSep_foldName (d2.name ++ sep :: w.name.drop (L + 1)),
              hxfold, length_splitSep_foldName]
          rw [hxsplit] at hlen_eq
          omega
      -- conclude via the post-pass
      rw [← hst']
      exact create_missing_parents_parent_complete st3 d2.name usn H1 H2
  · -- the name did not change: the row is rewritten in place
    rw [if_neg hchg] at h
    simp only [Except.ok.injEq, Prod.mk.injEq] at h
    obtain ⟨hst', hd'⟩ := h
    have hname : original.name = d1.name := by
      by_contra hcon
      exact hchg hcon
    intro x hx p hp
    rw [← hst'] at hx
    have hxdecks : (update_single_deck_undoable st d1 original).decks =
        st.decks.map (fun e => if e.id == d1.id then d1 else e) := rfl
    rw [hxdecks] at hx
    obtain ⟨w, hw, hgw⟩ := List.mem_map.mp hx
    have hxname : x.name = w.name := by
      rw [← hgw]
      by_cases hwid : w.id = d1.id
      · rw [if_pos (by simpa using hwid)]
        have hworig : w = original :=
          mem_id_unique st hnodup w original hw horig (by rw [hwid, hd1id, ← hoid])
        rw [← hname, hworig]
      · rw [if_neg (by simpa using hwid)]
    rw [hxname] at hp
    obtain ⟨v, hv, hvname⟩ := hpc w hw p hp
    refine ⟨if v.id == d1.id then d1 else v, ?_, ?_⟩
    · rw [← hst', hxdecks]
      exact List.mem_map.mpr ⟨v, hv, rfl⟩
    · by_cases hvid : v.id = d1.id
      · rw [if_pos (by simpa using hvid)]
        have hvorig : v = original :=
          mem_id_unique st hnodup v original hv horig (by rw [hvid, hd1id, ← hoid])
        rw [← hname, ← hvorig]
        exact hvname
      · rw [if_neg (by simpa using hvid)]
        exact hvname

/-! ## Claim theorems -/

/-- Shorthand for writing concrete names. -/
def nm (s : String) : Name := s.data

/-- A trivial environment for concrete runs: normalization is the
identity and the uniqueness enforcer never renames. -/
def idEnv : NameEnv := { normalize := fun n => n, uniquify := fun _ d => d.name }

/-- C1.  After every successful `add_deck` or `update_deck` call on a
well-formed store (distinct ids, fresh next id, unique names, ancestor
completeness), ancestor completeness holds: for every persisted deck whose
name has more than one component, a deck named by all components but the
last is also persisted. -/
theorem c1_ancestor_complete_after_add_update
    (env : NameEnv) (st : Store) (deck : Deck) (st' : Store) (d' : Deck)
    (hnodup : IdsNodup st) (hnext : NextIdOk st) (huniq : UniqueNames st)
    (hac : AncestorComplete st) :
    (add_deck env st deck = (st', .ok d') → AncestorComplete st') ∧
    (update_deck env st deck = (st', .ok d') → AncestorComplete st') := by
  have hpc := (ancestorComplete_iff_parentComplete st).mp hac
  constructor
  · intro h
    unfold add_deck at h
    by_cases hid : deck.id ≠ 0
    · rw [if_pos hid] at h
      simp at h
    · rw [if_neg hid] at h
      simp only [transact] at h
      cases hb : add_deck_inner env st deck st.usn with
      | error e =>
        rw [hb] at h
        simp at h
      | ok pair =>
        obtain ⟨stb, db⟩ := pair
        rw [hb] at h
        simp only [Prod.mk.injEq, Except.ok.injEq] at h
        rw [← h.1]
        exact (ancestorComplete_iff_parentComplete stb).mpr
          (add_deck_inner_parent_complete env st deck st.usn stb db hnodup hnext hpc hb)
  · intro h
    simp only [update_deck, transact] at h
    cases hg : get_deck st deck.id with
    | none =>
      simp only [hg] at h
      simp at h
    | some existing =>
      simp only [hg] at h
      cases hb : update_deck_inner env st deck existing st.usn with
      | error e =>
        rw [hb] at h
        simp at h
      | ok pair =>
        obtain ⟨stb, db⟩ := pair
        rw [hb] at h
        simp only [Prod.mk.injEq, Except.ok.injEq] at h
        rw [← h.1]
        obtain ⟨hmem, hidq⟩ := get_deck_mem st deck.id existing hg
        exact (ancestorComplete_iff_parentComplete stb).mpr
          (update_deck_inner_parent_complete env st deck existing st.usn stb db
            hnodup hnext huniq hpc hmem hidq hb)

/-- C1 witness: a concrete successful add on a well-formed empty store. -/
theorem c1_ancestor_complete_witness :
    IdsNodup { decks := [], next_id := 1, usn := 0 } ∧
    NextIdOk { decks := [], next_id := 1, usn := 0 } ∧
    UniqueNames { decks := [], next_id := 1, usn := 0 } ∧
    AncestorComplete { decks := [], next_id := 1, usn := 0 } ∧
    ∃ st' d',
      add_deck idEnv { decks := [], next_id := 1, usn := 0 }
        { id := 0, name := nm "a", kind := .normal, usn := 0 } = (st', .ok d') ∧
      AncestorComplete st' := by
  refine ⟨by simp [IdsNodup], by simp [NextIdOk], by simp [UniqueNames],
    by simp [AncestorComplete], ?_⟩
  have hfep : first_existing_parent { decks := [], next_id := 1, usn := 0 }
      (nm "a") 0 = .ok none :=
    first_existing_parent_root _ _ 0 (by omega) (by decide)
  have hmocp : match_or_create_parents { decks := [], next_id := 1, usn := 0 }
      { id := 0, name := nm "a", kind := .normal, usn := 0 } 0 =
      .ok ({ decks := [], next_id := 1, usn := 0 },
        { id := 0, name := nm "a", kind := .normal, usn := 0 }) :=
    match_or_create_parents_none_root _ _ 0 hfep (by decide)
  have hrun : add_deck idEnv { decks := [], next_id := 1, usn := 0 }
      { id := 0, name := nm "a", kind := .normal, usn := 0 } =
      ({ decks := [{ id := 1, name := nm "a", kind := .normal, usn := 0 }],
          next_id := 2, usn := 0 },
        .ok { id := 1, name := nm "a", kind := .normal, usn := 0 }) := by
    unfold add_deck
    rw [if_neg (by decide)]
    simp only [transact, add_deck_inner]
    rw [show (prepare_deck_for_update idEnv { decks := [], next_id := 1, usn := 0 }
        { id := 0, name := nm "a", kind := .normal, usn := 0 } 0).set_modified 0 =
      ({ id := 0, name := nm "a", kind := .normal, usn := 0 } : Deck) from rfl]
    rw [hmocp]
    rfl
  refine ⟨_, _, hrun, ?_⟩
  exact (c1_ancestor_complete_after_add_update idEnv
    { decks := [], next_id := 1, usn := 0 }
    { id := 0, name := nm "a", kind := .normal, usn := 0 } _ _
    (by simp [IdsNodup]) (by simp [NextIdOk]) (by simp [UniqueNames])
    (by simp [AncestorComplete])).1 hrun

/-- C7.  `add_deck` rejects any deck whose id is not the sentinel 0 with
an invalid-input error and leaves the store untouched, and it can succeed
only when the id is the sentinel. -/
theorem c7_add_requires_sentinel_id (env : NameEnv) (st : Store) (deck : Deck) :
    (deck.id ≠ 0 →
      add_deck env st deck =
        (st, .error (.invalid_input "deck to add must have id 0"))) ∧
    (∀ st' d', add_deck env st deck = (st', .ok d') → deck.id = 0) := by
  constructor
  · intro h
    unfold add_deck
    rw [if_pos h]
  · intro st' d' h
    by_contra hne
    unfold add_deck at h
    rw [if_pos hne] at h
    simp at h

/-- C7 witness: a deck with id 5 is rejected. -/
theorem c7_add_requires_sentinel_id_witness :
    ({ id := 5, name := nm "b", kind := .normal, usn := 0 } : Deck).id ≠ 0 ∧
    add_deck idEnv { decks := [], next_id := 1, usn := 0 }
        { id := 5, name := nm "b", kind := .normal, usn := 0 } =
      ({ decks := [], next_id := 1, usn := 0 },
        .error (.invalid_input "deck to add must have id 0")) :=
  ⟨by decide,
    (c7_add_requires_sentinel_id idEnv { decks := [], next_id := 1, usn := 0 }
      { id := 5, name := nm "b", kind := .normal, usn := 0 }).1 (by decide)⟩

/-- C8.  `update_deck` on an id with no persisted row fails with the
not-found error and leaves the store unchanged. -/
theorem c8_update_not_found (env : NameEnv) (st : Store) (deck : Deck)
    (h : get_deck st deck.id = none) :
    update_deck env st deck = (st, .error .not_found) := by
  simp only [update_deck, transact, h]

/-- C8 witness: updating against an empty store fails with not-found. -/
theorem c8_update_not_found_witness :
    get_deck { decks := [], next_id := 1, usn := 0 }
        ({ id := 3, name := nm "a", kind := .normal, usn := 0 } : Deck).id = none ∧
    update_deck idEnv { decks := [], next_id := 1, usn := 0 }
        { id := 3, name := nm "a", kind := .normal, usn := 0 } =
      ({ decks := [], next_id := 1, usn := 0 }, .error .not_found) :=
  ⟨by decide,
    c8_update_not_found idEnv { decks := [], next_id := 1, usn := 0 }
      { id := 3, name := nm "a", kind := .normal, usn := 0 } (by decide)⟩

/-- C10.  The combined entry point dispatches exactly: it behaves as
`add_deck` when the deck carries the sentinel id 0 and as `update_deck`
otherwise, with no behaviour of its own. -/
theorem c10_add_or_update_dispatch (env : NameEnv) (st : Store) (deck : Deck) :
    add_or_update_deck env st deck =
      if deck.id = 0 then add_deck env st deck else update_deck env st deck := rfl

/-- The chain of proper ancestors has one entry per component except the
last. -/
theorem parent_chain_length (n : Name) :
    (parent_chain n).length = (splitSep n).length - 1 := by
  induction n using parent_chain.induct with
  | case1 n p hp ih =>
    rw [parent_chain_some n p hp]
    obtain ⟨hlen, -⟩ := immediate_parent_name_some_components n p hp
    have hsp := splitSep_parent n p hp
    simp only [List.length_cons, ih, hsp, List.length_dropLast]
    omega
  | case2 n hp =>
    rw [parent_chain_none n hp]
    rw [immediate_parent_name_eq_components] at hp
    by_cases hlen : 2 ≤ (splitSep n).length
    · rw [if_pos hlen] at hp
      cases hp
    · simp only [List.length_nil]
      omega

/-- C2.  A filtered deck resolved as the nearest existing ancestor makes
match-or-create reconciliation fail with the filtered-deck-must-be-leaf
error, and the enclosing `add_deck`/`update_deck` transaction rolls back,
leaving the store unchanged. -/
theorem c2_filtered_ancestor_fails (env : NameEnv) (st : Store) (deck : Deck)
    (usn : Int) (pd : Deck) :
    (first_existing_parent st deck.name 0 = .ok (some pd) →
      pd.is_filtered = true →
      match_or_create_parents st deck usn = .error .filtered_deck_must_be_leaf) ∧
    (deck.id = 0 →
      first_existing_parent st
          ((prepare_deck_for_update env st deck st.usn).set_modified st.usn).name 0 =
        .ok (some pd) →
      pd.is_filtered = true →
      add_deck env st deck = (st, .error .filtered_deck_must_be_leaf)) ∧
    (∀ original, get_deck st deck.id = some original →
      original.name ≠
        ((prepare_deck_for_update env st deck st.usn).set_modified st.usn).name →
      first_existing_parent st
          ((prepare_deck_for_update env st deck st.usn).set_modified st.usn).name 0 =
        .ok (some pd) →
      pd.is_filtered = true →
      update_deck env st deck = (st, .error .filtered_deck_must_be_leaf)) := by
  refine ⟨fun hfep hfil => match_or_create_parents_filtered st deck usn pd hfep hfil,
    ?_, ?_⟩
  · intro hid hfep hfil
    unfold add_deck
    rw [if_neg (by simpa using hid)]
    simp only [transact, add_deck_inner]
    rw [match_or_create_parents_filtered st _ st.usn pd hfep hfil]
  · intro original hg hchg hfep hfil
    simp only [update_deck, transact]
    rw [hg]
    simp only [update_deck_inner]
    rw [if_pos hchg]
    rw [match_or_create_parents_filtered st _ st.usn pd hfep hfil]

/-- C2 witness: adding a child under a filtered deck fails and leaves the
store unchanged (the prepared name of the added deck is its own name under
the trivial environment). -/
theorem c2_filtered_ancestor_fails_witness :
    ({ id := 0, name := nm "F\x1fc", kind := .normal, usn := 0 } : Deck).id = 0 ∧
    first_existing_parent
        { decks := [{ id := 1, name := nm "F", kind := .filtered, usn := 0 }],
          next_id := 2, usn := 0 } (nm "F\x1fc") 0 =
      .ok (some { id := 1, name := nm "F", kind := .filtered, usn := 0 }) ∧
    ({ id := 1, name := nm "F", kind := .filtered, usn := 0 } : Deck).is_filtered = true ∧
    add_deck idEnv
        { decks := [{ id := 1, name := nm "F", kind := .filtered, usn := 0 }],
          next_id := 2, usn := 0 }
        { id := 0, name := nm "F\x1fc", kind := .normal, usn := 0 } =
      ({ decks := [{ id := 1, name := nm "F", kind := .filtered, usn := 0 }],
          next_id := 2, usn := 0 }, .error .filtered_deck_must_be_leaf) := by
  have hfep : first_existing_parent
      { decks := [{ id := 1, name := nm "F", kind := .filtered, usn := 0 }],
        next_id := 2, usn := 0 } (nm "F\x1fc") 0 =
      .ok (some { id := 1, name := nm "F", kind := .filtered, usn := 0 }) := by
    rw [first_existing_parent_found _ _ (nm "F") 0 1 (by omega) (by decide) (by decide)]
    rfl
  exact ⟨rfl, hfep, rfl,
    (c2_filtered_ancestor_fails idEnv
      { decks := [{ id := 1, name := nm "F", kind := .filtered, usn := 0 }],
        next_id := 2, usn := 0 }
      { id := 0, name := nm "F\x1fc", kind := .normal, usn := 0 } 0
      { id := 1, name := nm "F", kind := .filtered, usn := 0 }).2.1 rfl hfep rfl⟩

/-- C3.  A chain of more than 10 missing ancestors makes the resolver
fail with the invalid-input "deck nesting level too deep" error instead of
recursing further.  The resolver is read-only by construction (its type
returns no store), so no mutation is performed. -/
theorem c3_ancestor_chain_too_deep (st : Store) (n : Name)
    (hdepth : 10 < (parent_chain n).length)
    (habs : ∀ q ∈ (parent_chain n).take 11, ¬ uni_present st q) :
    first_existing_parent st n 0 =
      .error (.invalid_input "deck nesting level too deep") :=
  first_existing_parent_too_deep st n 0 (by omega) habs

/-- C3 witness: a 12-component name over the empty store. -/
theorem c3_ancestor_chain_too_deep_witness :
    10 < (parent_chain (nm "a\x1fb\x1fc\x1fd\x1fe\x1ff\x1fg\x1fh\x1fi\x1fj\x1fk\x1fl")).length ∧
    (∀ q ∈ (parent_chain (nm "a\x1fb\x1fc\x1fd\x1fe\x1ff\x1fg\x1fh\x1fi\x1fj\x1fk\x1fl")).take 11,
      ¬ uni_present { decks := [], next_id := 1, usn := 0 } q) ∧
    first_existing_parent { decks := [], next_id := 1, usn := 0 }
        (nm "a\x1fb\x1fc\x1fd\x1fe\x1ff\x1fg\x1fh\x1fi\x1fj\x1fk\x1fl") 0 =
      .error (.invalid_input "deck nesting level too deep") := by
  have hdepth : 10 <
      (parent_chain (nm "a\x1fb\x1fc\x1fd\x1fe\x1ff\x1fg\x1fh\x1fi\x1fj\x1fk\x1fl")).length := by
    rw [parent_chain_length]
    decide
  have habs : ∀ q ∈ (parent_chain
        (nm "a\x1fb\x1fc\x1fd\x1fe\x1ff\x1fg\x1fh\x1fi\x1fj\x1fk\x1fl")).take 11,
      ¬ uni_present { decks := [], next_id := 1, usn := 0 } q := by
    intro q hq hu
    obtain ⟨d, hd, -⟩ := hu
    cases hd
  exact ⟨hdepth, habs,
    c3_ancestor_chain_too_deep { decks := [], next_id := 1, usn := 0 } _ hdepth habs⟩

/-- C4.  When reconciliation finds an existing (non-filtered) ancestor, it
rewrites the deck's name to exactly the ancestor's stored name (with its
stored casing) followed by the separator and the components of the
original name beyond the ancestor's component count. -/
theorem c4_matched_parent_rewrites_name (st : Store) (deck : Deck) (usn : Int)
    (pd : Deck) (hnodup : IdsNodup st)
    (hfep : first_existing_parent st deck.name 0 = .ok (some pd))
    (hfil : pd.is_filtered = false) :
    ∃ st' d', match_or_create_parents st deck usn = .ok (st', d') ∧
      d'.name = joinSep (splitSep pd.name ++
        (splitSep deck.name).drop (splitSep pd.name).length) := by
  rw [match_or_create_parents_found st deck usn pd hfep hfil]
  obtain ⟨hmem, j, hj1, hjk, hpdlen, hfold, hmiss⟩ :=
    matched_parent_chain st deck.name pd hnodup hfep
  have hcount : pd.name.count sep + 1 = j := by
    rw [← length_splitSep_eq_count]
    exact hpdlen
  have hdropne : (splitSep deck.name).drop j ≠ [] := by
    intro hnil
    have := congrArg List.length hnil
    rw [List.length_drop] at this
    simp only [List.length_nil] at this
    omega
  have hname_eq : pd.name ++
      sep :: joinSep ((splitSep deck.name).drop (pd.name.count sep + 1)) =
      joinSep (splitSep pd.name ++
        (splitSep deck.name).drop (splitSep pd.name).length) := by
    rw [hcount, hpdlen,
      joinSep_append _ _ (splitSep_ne_nil pd.name) hdropne, joinSep_splitSep]
  by_cases hnc : (pd.name.count sep + 1) ≠ (splitSep deck.name).length - 1
  · rw [if_pos hnc]
    exact ⟨_, _, rfl, hname_eq⟩
  · rw [if_neg hnc]
    exact ⟨_, _, rfl, hname_eq⟩

/-- C4 witness: adding `parent<sep>child` when the ancestor is stored as
`Parent` rewrites the new deck's name to `Parent<sep>child`. -/
theorem c4_matched_parent_rewrites_name_witness :
    IdsNodup
      { decks := [{ id := 1, name := nm "Parent", kind := .normal, usn := 0 }],
        next_id := 2, usn := 0 } ∧
    first_existing_parent
      { decks := [{ id := 1, name := nm "Parent", kind := .normal, usn := 0 }],
        next_id := 2, usn := 0 } (nm "parent\x1fchild") 0 =
      .ok (some { id := 1, name := nm "Parent", kind := .normal, usn := 0 }) ∧
    ({ id := 1, name := nm "Parent", kind := .normal, usn := 0 } : Deck).is_filtered
      = false ∧
    ∃ st' d',
      match_or_create_parents
        { decks := [{ id := 1, name := nm "Parent", kind := .normal, usn := 0 }],
          next_id := 2, usn := 0 }
        { id := 0, name := nm "parent\x1fchild", kind := .normal, usn := 0 } 0 =
        .ok (st', d') ∧
      d'.name = nm "Parent\x1fchild" := by
  have hnodup : IdsNodup
      { decks := [{ id := 1, name := nm "Parent", kind := .normal, usn := 0 }],
        next_id := 2, usn := 0 } := by
    simp [IdsNodup]
  have hfep : first_existing_parent
      { decks := [{ id := 1, name := nm "Parent", kind := .normal, usn := 0 }],
        next_id := 2, usn := 0 } (nm "parent\x1fchild") 0 =
      .ok (some { id := 1, name := nm "Parent", kind := .normal, usn := 0 }) := by
    rw [first_existing_parent_found _ _ (nm "parent") 0 1 (by omega) (by decide)
      (by decide)]
    rfl
  obtain ⟨st', d', hrun, hname⟩ := c4_matched_parent_rewrites_name
    { decks := [{ id := 1, name := nm "Parent", kind := .normal, usn := 0 }],
      next_id := 2, usn := 0 }
    { id := 0, name := nm "parent\x1fchild", kind := .normal, usn := 0 } 0
    { id := 1, name := nm "Parent", kind := .normal, usn := 0 } hnodup hfep rfl
  refine ⟨hnodup, hfep, rfl, st', d', hrun, ?_⟩
  rw [hname]
  decide

/-- Witness store for C5: a single persisted deck named `A<sep>B`. -/
def stAB : Store :=
  { decks := [{ id := 1, name := nm "A\x1fB", kind := .normal, usn := 0 }],
    next_id := 2, usn := 0 }

/-- Witness store for C6 and C9: a single persisted deck. -/
def stP : Store :=
  { decks := [{ id := 1, name := nm "p", kind := .normal, usn := 0 }],
    next_id := 2, usn := 0 }

/-- C5 counterexample.  The parent materializer does NOT stop at the first
existing ancestor: with only `A<sep>B` persisted, materializing the
parents of `A<sep>B<sep>C` also creates a deck named `A` — a level above
the ancestor `A<sep>B` that already exists in storage. -/
theorem c5_counterexample_creates_above_existing :
    (∃ d ∈ stAB.decks, d.name = nm "A\x1fB") ∧
    (∀ d ∈ stAB.decks, d.name ≠ nm "A") ∧
    ∃ d ∈ (create_missing_parents stAB (nm "A\x1fB\x1fC") 0).decks,
      d.name = nm "A" := by
  have h1 : create_missing_parents stAB (nm "A\x1fB\x1fC") 0 =
      create_missing_parents stAB (nm "A\x1fB") 0 := by
    rw [create_missing_parents_step _ _ (nm "A\x1fB") 0 (by decide)]
    rw [if_neg (by decide)]
  have h2 : create_missing_parents stAB (nm "A\x1fB") 0 =
      create_missing_parents (add_parent_deck stAB (nm "A") 0) (nm "A") 0 := by
    rw [create_missing_parents_step _ _ (nm "A") 0 (by decide)]
    rw [if_pos (by decide)]
  have h3 : create_missing_parents (add_parent_deck stAB (nm "A") 0) (nm "A") 0 =
      add_parent_deck stAB (nm "A") 0 :=
    create_missing_parents_root _ _ 0 (by decide)
  refine ⟨⟨{ id := 1, name := nm "A\x1fB", kind := .normal, usn := 0 },
    by simp [stAB], rfl⟩, by decide, ?_⟩
  rw [h1, h2, h3]
  exact ⟨{ id := 2, name := nm "A", kind := .normal, usn := 0 },
    by simp [stAB, add_parent_deck, add_deck_undoable, Deck.new_normal, Deck.set_modified],
    rfl⟩

/-- C5 amended.  The parent materializer walks from the immediate parent
all the way to the root: it creates a deck at every ancestor level whose
name has no row in storage — including levels above an ancestor that
already exists — and leaves existing levels alone (it only appends rows
for previously missing chain levels, and afterwards every chain level has
a row). -/
theorem c5_amended_walks_to_root (st : Store) (n : Name) (usn : Int) :
    ∃ ext, (create_missing_parents st n usn).decks = st.decks ++ ext ∧
      (∀ e ∈ ext, e.name ∈ parent_chain n ∧ ¬ uni_present st e.name) ∧
      (∀ q ∈ parent_chain n, uni_present (create_missing_parents st n usn) q) := by
  obtain ⟨ext, hdecks, -, -, hprops⟩ := create_missing_parents_decks st n usn
  exact ⟨ext, hdecks, fun e he => ⟨(hprops e he).1, (hprops e he).2.1⟩,
    create_missing_parents_uni_all st n usn⟩

/-- C6.  The parent materializer is idempotent: on a name whose ancestors
all already exist it is a no-op on the store, and running it twice in a
row equals running it once (the second run creates nothing). -/
theorem c6_create_missing_parents_idempotent (st : Store) (n : Name) (usn : Int) :
    ((∀ q ∈ parent_chain n, lit_present st q) →
      create_missing_parents st n usn = st) ∧
    create_missing_parents (create_missing_parents st n usn) n usn =
      create_missing_parents st n usn := by
  constructor
  · intro hall
    exact create_missing_parents_noop st n usn
      (fun q hq => lit_present_uni _ _ (hall q hq))
  · exact create_missing_parents_noop _ n usn
      (create_missing_parents_uni_all st n usn)

/-- C6 witness: a store where the single ancestor of `p<sep>c` exists. -/
theorem c6_create_missing_parents_idempotent_witness :
    (∀ q ∈ parent_chain (nm "p\x1fc"), lit_present stP q) ∧
    create_missing_parents stP (nm "p\x1fc") 0 = stP := by
  have hchain : parent_chain (nm "p\x1fc") = [nm "p"] := by
    rw [parent_chain_some _ (nm "p") (by decide), parent_chain_none (nm "p") (by decide)]
  have hall : ∀ q ∈ parent_chain (nm "p\x1fc"), lit_present stP q := by
    intro q hq
    rw [hchain] at hq
    simp only [List.mem_singleton] at hq
    subst hq
    exact ⟨{ id := 1, name := nm "p", kind := .normal, usn := 0 }, by simp [stP], rfl⟩
  exact ⟨hall,
    (c6_create_missing_parents_idempotent stP (nm "p\x1fc") 0).1 hall⟩

/-- C9.  When the normalized, deduplicated proposed name equals the
existing row's name, the update persists the deck row directly: no
match-or-create reconciliation, no ancestor materialization and no
descendant rename run; the store keeps the same number of rows, every
other row survives unchanged, and every row afterwards is an old row or
the updated one. -/
theorem c9_update_unchanged_name_frame (env : NameEnv) (st : Store)
    (deck original : Deck) (hg : get_deck st deck.id = some original)
    (hn : original.name =
      ((prepare_deck_for_update env st deck st.usn).set_modified st.usn).name) :
    update_deck env st deck =
      (update_single_deck_undoable st
        ((prepare_deck_for_update env st deck st.usn).set_modified st.usn) original,
       .ok ((prepare_deck_for_update env st deck st.usn).set_modified st.usn)) ∧
    (update_deck env st deck).1.decks.length = st.decks.length ∧
    (∀ e ∈ st.decks, e.id ≠ deck.id → e ∈ (update_deck env st deck).1.decks) ∧
    (∀ e' ∈ (update_deck env st deck).1.decks, e' ∈ st.decks ∨
      e' = (prepare_deck_for_update env st deck st.usn).set_modified st.usn) := by
  have hd1id : ((prepare_deck_for_update env st deck st.usn).set_modified st.usn).id =
      deck.id := (prepare_deck_for_update_fields env st deck st.usn).1
  have hrun : update_deck env st deck =
      (update_single_deck_undoable st
        ((prepare_deck_for_update env st deck st.usn).set_modified st.usn) original,
       .ok ((prepare_deck_for_update env st deck st.usn).set_modified st.usn)) := by
    simp only [update_deck, transact]
    simp only [hg]
    simp only [update_deck_inner]
    rw [if_neg (by simp [hn])]
  refine ⟨hrun, ?_, ?_, ?_⟩
  · rw [hrun]
    simp [update_single_deck_undoable]
  · intro e he hid
    rw [hrun]
    show e ∈ (update_single_deck_undoable st _ original).decks
    refine List.mem_map.mpr ⟨e, he, ?_⟩
    rw [if_neg (by rw [hd1id]; simpa using hid)]
  · intro e' he'
    rw [hrun] at he'
    obtain ⟨e, he, hge⟩ := List.mem_map.mp he'
    by_cases hid : e.id ==
        ((prepare_deck_for_update env st deck st.usn).set_modified st.usn).id
    · right
      rw [← hge, if_pos hid]
    · left
      rw [← hge, if_neg hid]
      exact he

/-- C9 witness: updating a deck whose prepared name equals the stored
name leaves the store the same size. -/
theorem c9_update_unchanged_name_frame_witness :
    get_deck stP ({ id := 1, name := nm "p", kind := .normal, usn := 5 } : Deck).id =
      some { id := 1, name := nm "p", kind := .normal, usn := 0 } ∧
    (update_deck idEnv stP
      { id := 1, name := nm "p", kind := .normal, usn := 5 }).1.decks.length =
      stP.decks.length := by
  have hg : get_deck stP ({ id := 1, name := nm "p", kind := .normal, usn := 5 } : Deck).id =
      some { id := 1, name := nm "p", kind := .normal, usn := 0 } := by decide
  exact ⟨hg,
    (c9_update_unchanged_name_frame idEnv stP
      { id := 1, name := nm "p", kind := .normal, usn := 5 }
      { id := 1, name := nm "p", kind := .normal, usn := 0 } hg rfl).2.1⟩

end AnkiDecks
